import Mathlib

/-!
# Word tables of `scripts/initWordTables/main.go`

A shallow embedding of the scoring pipeline of the script: line normalisation,
the four length buckets filled by `scanFile`, the per-letter ratings computed
at the end of `scanFile`, and `getScore`.

Conventions of the embedding.

* A Go `string` is the list of runes that `range` (and the regexp engine)
  see; a byte that is not valid UTF-8 is seen by both as `U+FFFD`.
* The Unicode case table behind `strings.ToLower` is not part of the
  repository; the rune mapping is a parameter `lower` of the model, and the
  general theorems hold for every mapping.
* A Go `int` is a `Nat`.  Every integer of the program is a letter count or a
  number of words, bounded by seven times the number of lines read, so the
  64-bit range is not left by any input that fits in memory.
* A Go map that is only read, written and ranged over key by key is a partial
  function.  The `words` maps, whose `len` is taken, are key-unique
  association lists.  The order in which `range` visits a map is left open
  where it can matter (`getScore`).
* `float64` values are `NaN`, `+Inf` or a rational; every operation computes
  the exact result and rounds it to the nearest number with a 53-bit
  significand, ties to even (IEEE 754 binary64, round to nearest even).  All
  operands of the program are non-negative and lie in `{0} ∪ [2^-64, 2^64]`,
  so negative values, signed zeros, subnormals and overflow are not
  represented.
-/

namespace Wordle

/-! ## Strings and the alphabet -/

/-- Go `string`, as its sequence of runes. -/
abbrev Str := List Char

/-- The constant `letters`: the 32 letters of the alphabet (no `ё`). -/
def letters : Str :=
  ['а', 'б', 'в', 'г', 'д', 'е', 'ж', 'з', 'и', 'й', 'к', 'л', 'м', 'н', 'о', 'п',
   'р', 'с', 'т', 'у', 'ф', 'х', 'ц', 'ч', 'ш', 'щ', 'ъ', 'ы', 'ь', 'э', 'ю', 'я']

/-- The character class `[а-яё]` of the four regular expressions. -/
def inClass (c : Char) : Bool :=
  (decide ('а' ≤ c) && decide (c ≤ 'я')) || c == 'ё'

/-- The regular expression `^[а-яё]{n}$` (`word4Rgx` … `word7Rgx`). -/
def wordRgx (n : Nat) (word : Str) : Bool :=
  word.length == n && word.all inClass

/-- Go `unicode.IsSpace`: the code points with the `White_Space` property. -/
def isSpace (c : Char) : Bool :=
  let r := c.toNat
  (9 ≤ r && r ≤ 13) || r == 0x20 || r == 0x85 || r == 0xA0 || r == 0x1680 ||
  (0x2000 ≤ r && r ≤ 0x200A) || r == 0x2028 || r == 0x2029 || r == 0x202F ||
  r == 0x205F || r == 0x3000

/-- Go `strings.TrimSpace`: drop the leading and the trailing white space. -/
def trimSpace (s : Str) : Str :=
  ((s.dropWhile isSpace).reverse.dropWhile isSpace).reverse

/-- Go `strings.ToLower`, rune by rune.  The Unicode case table is not part of
the repository: the rune mapping `unicode.ToLower` is the parameter `lower`. -/
def toLower (lower : Char → Char) (s : Str) : Str :=
  s.map lower

/-- Go `strings.ReplaceAll(s, "ё", "е")`. -/
def replaceYo (s : Str) : Str :=
  s.map fun c => if c = 'ё' then 'е' else c

/-- The word of a line, first statement of the loop of `scanFile`:
`strings.ReplaceAll(strings.ToLower(strings.TrimSpace(line)), "ё", "е")`. -/
def normalize (lower : Char → Char) (line : Str) : Str :=
  replaceYo (toLower lower (trimSpace line))

/-- A value of the parameter `lower` for concrete runs: it agrees with
`unicode.ToLower` on ASCII and on the Cyrillic block `U+0400`–`U+045F`, and
leaves every other rune unchanged. -/
def cyrLower (c : Char) : Char :=
  let r := c.toNat
  if 0x41 ≤ r ∧ r ≤ 0x5A then Char.ofNat (r + 32)
  else if 0x410 ≤ r ∧ r ≤ 0x42F then Char.ofNat (r + 32)
  else if 0x400 ≤ r ∧ r ≤ 0x40F then Char.ofNat (r + 80)
  else c

/-! ## Maps -/

/-- Go `map[rune]int` (`letterCount4` … `letterCount7`). -/
abbrev CountMap := Char → Option Nat

/-- Go `map[string][n]rune` (`words4` … `words7`): key-unique entries. -/
abbrev WordMap := List (Str × List Char)

/-- Go `m[k] = v` on a map held as a partial function. -/
def setKey {β : Type} (m : Char → Option β) (k : Char) (v : β) : Char → Option β :=
  fun x => if x = k then some v else m x

/-- Go `letterCount[letter]++`: a missing key reads as 0. -/
def incr (m : CountMap) (letter : Char) : CountMap :=
  setKey m letter ((m letter).getD 0 + 1)

/-- Go `_, ok := words[word]`. -/
def hasKey (m : WordMap) (word : Str) : Bool :=
  (m.lookup word).isSome

/-- Go `words[word] = letters`. -/
def setWord (m : WordMap) (word : Str) (arr : List Char) : WordMap :=
  (word, arr) :: m.filter fun e => !(e.1 == word)

/-! ## The loop of `scanFile` -/

/-- State of the inner loop `for _, letter := range word`: the count map, the
array `letters` and the index `i`. -/
structure Fill where
  cnt : CountMap
  arr : List Char
  i : Nat

/-- One iteration of the inner loop: `letterCount[letter]++`,
`letters[i] = letter` (which panics when `i` is out of range), `i++`. -/
def fillStep (st : Fill) (letter : Char) : Option Fill :=
  let cnt := incr st.cnt letter
  if st.i < st.arr.length then some ⟨cnt, st.arr.set st.i letter, st.i + 1⟩ else none

/-- The inner loop on `var letters [n]rune` (all zero) and `var i int`. -/
def fill (n : Nat) (word : Str) (cnt : CountMap) : Option Fill :=
  word.foldlM fillStep ⟨cnt, List.replicate n (Char.ofNat 0), 0⟩

/-- The body of one `if wordNRgx.MatchString(word)` branch:
`if _, ok := words[word]; !ok { …; words[word] = letters }`. -/
def addWord (n : Nat) (word : Str) (words : WordMap) (cnt : CountMap) :
    Option (WordMap × CountMap) :=
  if hasKey words word then some (words, cnt)
  else (fill n word cnt).map fun st => (setWord words word st.arr, st.cnt)

/-! ## `float64` -/

/-- A non-negative `float64`: `NaN`, `+Inf` or a finite value. -/
inductive F64 where
  | nan : F64
  | inf : F64
  | fin : ℚ → F64
  deriving DecidableEq

/-- Nearest integer, ties to the even one (`math.RoundToEven` on a finite value). -/
def roundHalfEven (x : ℚ) : ℤ :=
  let f := ⌊x⌋
  if x - f < 1 / 2 then f
  else if 1 / 2 < x - f then f + 1
  else if f % 2 = 0 then f else f + 1

/-- Number of binary digits of `n`, by halving; `fuel` bounds the number of halvings. -/
def bitLenAux : Nat → Nat → Nat
  | 0, _ => 0
  | fuel + 1, n => if n = 0 then 0 else bitLenAux fuel (n / 2) + 1

/-- Number of binary digits of `n`. -/
def bitLen (n : Nat) : Nat := bitLenAux n n

/-- The binary exponent of a positive rational: the `e` with
`2 ^ e ≤ q < 2 ^ (e + 1)`, found from the bit lengths of numerator and
denominator. -/
def ilog2 (q : ℚ) : ℤ :=
  let e : ℤ := (bitLen q.num.toNat : ℤ) - (bitLen q.den : ℤ)
  if (2 : ℚ) ^ e ≤ q then e else e - 1

/-- Rounding of an exact non-negative result to `float64`: the nearest multiple
of `2 ^ (e - 52)`, where `2 ^ e ≤ q < 2 ^ (e + 1)`, ties to the even multiple. -/
def RN (q : ℚ) : ℚ :=
  if q ≤ 0 then 0
  else (roundHalfEven (q / 2 ^ (ilog2 q - 52)) : ℚ) * 2 ^ (ilog2 q - 52)

namespace F64

/-- The conversion `float64(n)` of an `int`. -/
def ofNat (n : Nat) : F64 := fin (RN n)

/-- The operator `/` of `float64`: no fault on a zero divisor. -/
def div : F64 → F64 → F64
  | nan, _ => nan
  | _, nan => nan
  | inf, inf => nan
  | inf, fin _ => inf
  | fin _, inf => fin 0
  | fin x, fin y => if y = 0 then (if x = 0 then nan else inf) else fin (RN (x / y))

/-- The operator `*` of `float64`. -/
def mul : F64 → F64 → F64
  | nan, _ => nan
  | _, nan => nan
  | inf, inf => inf
  | inf, fin y => if y = 0 then nan else inf
  | fin x, inf => if x = 0 then nan else inf
  | fin x, fin y => fin (RN (x * y))

/-- The operator `+` of `float64`. -/
def add : F64 → F64 → F64
  | nan, _ => nan
  | _, nan => nan
  | inf, _ => inf
  | _, inf => inf
  | fin x, fin y => fin (RN (x + y))

/-- Go `math.RoundToEven`. -/
def roundToEven : F64 → F64
  | nan => nan
  | inf => inf
  | fin x => fin (roundHalfEven x)

end F64

/-- Go `map[rune]float64` (`letterRating4` … `letterRating7`, `l2r`). -/
abbrev RatingMap := Char → Option F64

/-! ## Program state, `initLetterCounts`, `scanFile` -/

/-- The twelve package-level maps. -/
structure State where
  words4 : WordMap
  words5 : WordMap
  words6 : WordMap
  words7 : WordMap
  letterCount4 : CountMap
  letterCount5 : CountMap
  letterCount6 : CountMap
  letterCount7 : CountMap
  letterRating4 : RatingMap
  letterRating5 : RatingMap
  letterRating6 : RatingMap
  letterRating7 : RatingMap

/-- The maps as `make` leaves them. -/
def emptyState : State :=
  ⟨[], [], [], [], fun _ => none, fun _ => none, fun _ => none, fun _ => none,
   fun _ => none, fun _ => none, fun _ => none, fun _ => none⟩

/-- Function `initLetterCounts`. -/
def initLetterCounts (s : State) : State :=
  letters.foldl (fun s letter =>
    { s with letterCount4 := setKey s.letterCount4 letter 0
             letterCount5 := setKey s.letterCount5 letter 0
             letterCount6 := setKey s.letterCount6 letter 0
             letterCount7 := setKey s.letterCount7 letter 0 }) s

/-- The state in which `main` starts scanning. -/
def initState : State := initLetterCounts emptyState

/-- The body of the loop `for scanner.Scan()` of `scanFile`, on one line;
`none` is a run-time panic. -/
def scanLine (lower : Char → Char) (s : State) (line : Str) : Option State :=
  let word := normalize lower line
  if wordRgx 4 word then
    (addWord 4 word s.words4 s.letterCount4).map fun p =>
      { s with words4 := p.1, letterCount4 := p.2 }
  else if wordRgx 5 word then
    (addWord 5 word s.words5 s.letterCount5).map fun p =>
      { s with words5 := p.1, letterCount5 := p.2 }
  else if wordRgx 6 word then
    (addWord 6 word s.words6 s.letterCount6).map fun p =>
      { s with words6 := p.1, letterCount6 := p.2 }
  else if wordRgx 7 word then
    (addWord 7 word s.words7 s.letterCount7).map fun p =>
      { s with words7 := p.1, letterCount7 := p.2 }
  else some s

/-- The loop `for scanner.Scan()` of `scanFile` over the lines of a file. -/
def scanLines (lower : Char → Char) (s : State) (lines : List Str) : Option State :=
  lines.foldlM (scanLine lower) s

/-- The expression
`math.RoundToEven(float64(count)/float64(len(words)*n)*1000) / 1000`. -/
def rating (count len n : Nat) : F64 :=
  F64.div
    (F64.roundToEven
      (F64.mul (F64.div (F64.ofNat count) (F64.ofNat (len * n))) (F64.ofNat 1000)))
    (F64.ofNat 1000)

/-- One loop `for letter, count := range letterCount { letterRating[letter] = … }`. -/
def rate (cnt : CountMap) (len n : Nat) (r : RatingMap) : RatingMap :=
  fun letter =>
    match cnt letter with
    | some count => some (rating count len n)
    | none => r letter

/-- The four rating loops at the end of `scanFile`. -/
def rateAll (s : State) : State :=
  { s with letterRating4 := rate s.letterCount4 s.words4.length 4 s.letterRating4
           letterRating5 := rate s.letterCount5 s.words5.length 5 s.letterRating5
           letterRating6 := rate s.letterCount6 s.words6.length 6 s.letterRating6
           letterRating7 := rate s.letterCount7 s.words7.length 7 s.letterRating7 }

/-- Function `scanFile` on a file given by its lines. -/
def scanFile (lower : Char → Char) (s : State) (lines : List Str) : Option State :=
  (scanLines lower s lines).map rateAll

/-- The loop `for _, file := range files { scanFile(file) }` of `main`. -/
def scanFiles (lower : Char → Char) (s : State) (files : List (List Str)) : Option State :=
  files.foldlM (scanFile lower) s

/-! ## Buckets by length -/

/-- The map `words4` … `words7` of a length. -/
def State.words (s : State) : Nat → WordMap
  | 4 => s.words4
  | 5 => s.words5
  | 6 => s.words6
  | 7 => s.words7
  | _ => []

/-- The map `letterCount4` … `letterCount7` of a length. -/
def State.letterCount (s : State) : Nat → CountMap
  | 4 => s.letterCount4
  | 5 => s.letterCount5
  | 6 => s.letterCount6
  | 7 => s.letterCount7
  | _ => fun _ => none

/-- The map `letterRating4` … `letterRating7` of a length. -/
def State.letterRating (s : State) : Nat → RatingMap
  | 4 => s.letterRating4
  | 5 => s.letterRating5
  | 6 => s.letterRating6
  | 7 => s.letterRating7
  | _ => fun _ => none

/-! ## `getScore` -/

/-- The map `l2r` after the first loop of `getScore`:
`l2r[letter] = letterRating[letter]`, a missing rating reading as 0. -/
def buildL2r (letters : List Char) (letterRating : RatingMap) : RatingMap :=
  letters.foldl (fun m letter => setKey m letter ((letterRating letter).getD (F64.fin 0)))
    (fun _ => none)

/-- An order in which `range` may visit a map: every key once. -/
def RangeOrder {β : Type} (m : Char → Option β) (visit : List Char) : Prop :=
  visit.Nodup ∧ ∀ k, k ∈ visit ↔ (m k).isSome = true

/-- Function `getScore`; `visit` is the order in which `range l2r` yields the
keys, which Go leaves unspecified. -/
def getScore (visit : List Char) (letters : List Char) (letterRating : RatingMap) : F64 :=
  let l2r := buildL2r letters letterRating
  visit.foldl (fun score k => F64.add score ((l2r k).getD (F64.fin 0))) (F64.fin 0)

/-! ## The loop without the panic

`scanLine` can only fail on the array index; the regular expression rules that
out (`scanLine_eq`), and the loop is then the following total function. -/

/-- The branch `addWord` for a word that fits its array: the word is its own
letter sequence. -/
def addWordT (word : Str) (words : WordMap) (cnt : CountMap) : WordMap × CountMap :=
  if hasKey words word then (words, cnt)
  else (setWord words word word, word.foldl incr cnt)

/-- The loop body `scanLine` as a total function. -/
def scanLineT (lower : Char → Char) (s : State) (line : Str) : State :=
  let word := normalize lower line
  if wordRgx 4 word then
    { s with words4 := (addWordT word s.words4 s.letterCount4).1
             letterCount4 := (addWordT word s.words4 s.letterCount4).2 }
  else if wordRgx 5 word then
    { s with words5 := (addWordT word s.words5 s.letterCount5).1
             letterCount5 := (addWordT word s.words5 s.letterCount5).2 }
  else if wordRgx 6 word then
    { s with words6 := (addWordT word s.words6 s.letterCount6).1
             letterCount6 := (addWordT word s.words6 s.letterCount6).2 }
  else if wordRgx 7 word then
    { s with words7 := (addWordT word s.words7 s.letterCount7).1
             letterCount7 := (addWordT word s.words7 s.letterCount7).2 }
  else s

/-- Function `scanFile` as a total function. -/
def scanFileT (lower : Char → Char) (s : State) (lines : List Str) : State :=
  rateAll (lines.foldl (scanLineT lower) s)

/-- A state with its four rating maps replaced. -/
def withRatings (s : State) (r4 r5 r6 r7 : RatingMap) : State :=
  { s with letterRating4 := r4, letterRating5 := r5, letterRating6 := r6, letterRating7 := r7 }

/-- Invariant of one bucket: unique keys, every entry an `n`-letter word over
the alphabet stored with its own letters, the 32 counted keys, every count the
number of occurrences of the letter in the words, and as many counted letters
as letter slots. -/
structure BucketInv (n : Nat) (words : WordMap) (cnt : CountMap) : Prop where
  nodup : (words.map Prod.fst).Nodup
  entry : ∀ e ∈ words, e.2 = e.1 ∧ e.1.length = n ∧ ∀ c ∈ e.1, c ∈ letters
  keys : ∀ c, (cnt c).isSome = true ↔ c ∈ letters
  occ : ∀ l, (cnt l).getD 0 = (words.map fun e => e.1.count l).sum
  total : (letters.map fun l => (cnt l).getD 0).sum = words.length * n

/-- Invariant of the state: the invariant of each of the four buckets. -/
def Inv (s : State) : Prop :=
  ∀ n, n = 4 ∨ n = 5 ∨ n = 6 ∨ n = 7 → BucketInv n (s.words n) (s.letterCount n)

/-! ## Auxiliary definitions for the ratings and the concrete inputs -/

/-- The integer number of thousandths of a rating:
`math.RoundToEven(float64(count)/float64(total)*1000)`. -/
def ratingK (count total : Nat) : ℤ :=
  roundHalfEven (RN (RN (RN count / RN total) * 1000))

/-- The letter of the alphabet at position `k`. -/
def pick (k : Nat) : Char := letters.getD k 'а'

/-- Eighty distinct five-letter words in which `а` occurs 203 times:
43 words `ааа??` and 37 words `ааб??`. -/
def tieWords : List Str :=
  (List.range 43).map (fun i => ['а', 'а', 'а', pick (1 + i / 7), pick (1 + i % 7)]) ++
  (List.range 37).map (fun i => ['а', 'а', 'б', pick (1 + i / 7), pick (1 + i % 7)])

/-- 286 distinct seven-letter words in which `я` occurs once:
285 words `??ааааа` over `а` … `ю`, and `яаааааа`. -/
def rareWords : List Str :=
  (List.range 285).map (fun i => [pick (i / 31), pick (i % 31), 'а', 'а', 'а', 'а', 'а']) ++
  [['я', 'а', 'а', 'а', 'а', 'а', 'а']]

/-- Ten four-letter words, 40 letter slots, with `а` 12 times, `б` 8 times and
`в` 4 times (ratings 0.3, 0.2, 0.1); the first one is `абав`. -/
def scoreWords : List Str :=
  ["абав".toList, "абва".toList, "аабв".toList, "вбаа".toList, "аабг".toList,
   "аабд".toList, "ббгд".toList, "гдеж".toList, "гдез".toList, "гдеи".toList]

/-- A string read as a number in base `2 ^ 21`. -/
def code (w : Str) : Nat := w.foldl (fun a c => a * 2 ^ 21 + c.toNat) 0

/-- A list of numbers is strictly increasing. -/
def increasing : List Nat → Bool
  | [] => true
  | [_] => true
  | a :: b :: l => decide (a < b) && increasing (b :: l)

/-! ## The alphabet and the scanning loop -/

theorem le_iff_toNat (a b : Char) : a ≤ b ↔ a.toNat ≤ b.toNat := Iff.rfl

/-- The alphabet is the range `а`–`я`, `U+0430`–`U+044F`. -/
theorem mem_letters_iff (c : Char) : c ∈ letters ↔ 1072 ≤ c.toNat ∧ c.toNat ≤ 1103 := by
  constructor
  · intro h
    simp only [letters, List.mem_cons, List.mem_singleton, List.not_mem_nil, or_false] at h
    rcases h with h | h | h | h | h | h | h | h | h | h | h | h | h | h | h | h | h | h | h | h |
      h | h | h | h | h | h | h | h | h | h | h | h <;> subst h <;> decide
  · rintro ⟨h1, h2⟩
    have hc : c = Char.ofNat c.toNat := (Char.ofNat_toNat c).symm
    rw [hc]
    generalize c.toNat = n at h1 h2
    interval_cases n <;> decide

theorem inClass_iff (c : Char) : inClass c = true ↔ c ∈ letters ∨ c = 'ё' := by
  rw [mem_letters_iff]
  simp only [inClass, Bool.or_eq_true, Bool.and_eq_true, decide_eq_true_eq, beq_iff_eq,
    le_iff_toNat]
  rfl

/-- A normalized word has no `ё`. -/
theorem normalize_ne_yo (lower : Char → Char) (line : Str) :
    ∀ c ∈ normalize lower line, c ≠ 'ё' := by
  intro c hc
  simp only [normalize, replaceYo, List.mem_map] at hc
  obtain ⟨d, _, rfl⟩ := hc
  split
  · decide
  · assumption

theorem wordRgx_iff (n : Nat) (w : Str) :
    wordRgx n w = true ↔ w.length = n ∧ ∀ c ∈ w, inClass c = true := by
  simp [wordRgx, List.all_eq_true]

/-- The inner loop started at index `i` with room for the word writes the word
into the array from `i` on and counts each of its letters. -/
theorem foldlM_fillStep (word : Str) : ∀ st : Fill, st.i + word.length ≤ st.arr.length →
    word.foldlM fillStep st =
      some ⟨word.foldl incr st.cnt,
        st.arr.take st.i ++ word ++ st.arr.drop (st.i + word.length), st.i + word.length⟩ := by
  induction word with
  | nil => intro st _; simp
  | cons c w ih =>
    intro st h
    simp only [List.length_cons] at h
    have hi : st.i < st.arr.length := by omega
    simp only [List.foldlM_cons, fillStep, hi, if_true, Option.bind_eq_bind, Option.some_bind]
    rw [ih]
    · simp only [List.foldl_cons, List.length_cons, Option.some.injEq, Fill.mk.injEq]
      refine ⟨trivial, ?_, by omega⟩
      rw [List.set_eq_take_append_cons_drop, if_pos hi]
      have hl : (List.take st.i st.arr).length = st.i := by
        rw [List.length_take]; omega
      have e1 : List.take (st.i + 1) (List.take st.i st.arr ++ c :: List.drop (st.i + 1) st.arr)
          = List.take st.i st.arr ++ [c] := by
        rw [List.take_append_eq_append_take, hl]
        simp
      have e2 : List.drop (st.i + 1 + w.length)
            (List.take st.i st.arr ++ c :: List.drop (st.i + 1) st.arr)
          = List.drop (st.i + (w.length + 1)) st.arr := by
        rw [List.drop_append_eq_append_drop, hl]
        have h0 : List.drop (st.i + 1 + w.length) (List.take st.i st.arr) = [] := by
          apply List.drop_eq_nil_of_le; omega
        have h1 : st.i + 1 + w.length - st.i = (w.length) + 1 := by omega
        rw [h0, h1, List.nil_append, List.drop_succ_cons, List.drop_drop]
        congr 1; omega
      rw [e1, e2]; simp
    · simp; omega

theorem fill_eq (n : Nat) (word : Str) (cnt : CountMap) (h : word.length = n) :
    fill n word cnt = some ⟨word.foldl incr cnt, word, n⟩ := by
  unfold fill
  rw [foldlM_fillStep _ _ (by simp [h])]
  simp [h]

theorem addWord_eq (n : Nat) (word : Str) (words : WordMap) (cnt : CountMap)
    (h : word.length = n) : addWord n word words cnt = some (addWordT word words cnt) := by
  unfold addWord addWordT
  split
  · rfl
  · rw [fill_eq n word cnt h]; rfl

/-- The loop body never panics: it is the total function `scanLineT`. -/
theorem scanLine_eq (lower : Char → Char) (s : State) (line : Str) :
    scanLine lower s line = some (scanLineT lower s line) := by
  unfold scanLine scanLineT
  simp only
  split_ifs with h4 h5 h6 h7
  · rw [addWord_eq _ _ _ _ ((wordRgx_iff _ _).1 h4).1]; rfl
  · rw [addWord_eq _ _ _ _ ((wordRgx_iff _ _).1 h5).1]; rfl
  · rw [addWord_eq _ _ _ _ ((wordRgx_iff _ _).1 h6).1]; rfl
  · rw [addWord_eq _ _ _ _ ((wordRgx_iff _ _).1 h7).1]; rfl
  · rfl

theorem scanLines_eq (lower : Char → Char) (lines : List Str) : ∀ s : State,
    scanLines lower s lines = some (lines.foldl (scanLineT lower) s) := by
  induction lines with
  | nil => intro s; rfl
  | cons l ls ih =>
    intro s
    simp only [scanLines, List.foldlM_cons, scanLine_eq, List.foldl_cons,
      Option.bind_eq_bind, Option.some_bind]
    exact ih _

theorem letters_nodup : letters.Nodup := by decide

theorem sum_map_indicator (c : Char) (f : Char → Nat) :
    ∀ L : List Char, L.Nodup → c ∈ L →
      (L.map fun l => if l = c then f l + 1 else f l).sum = (L.map f).sum + 1 := by
  intro L
  induction L with
  | nil => intro _ h; simp at h
  | cons a L ih =>
    intro hn hm
    rw [List.nodup_cons] at hn
    by_cases hac : a = c
    · subst hac
      have : (L.map fun l => if l = a then f l + 1 else f l) = L.map f := by
        apply List.map_congr_left
        intro l hl
        have : l ≠ a := fun e => hn.1 (e ▸ hl)
        simp [this]
      simp only [List.map_cons, List.sum_cons, if_true, this]
      omega
    · have hm' : c ∈ L := by
        rcases List.mem_cons.1 hm with h | h
        · exact absurd h.symm hac
        · exact h
      simp only [List.map_cons, List.sum_cons, if_neg hac, ih hn.2 hm']
      omega

theorem incr_getD (cnt : CountMap) (c l : Char) :
    ((incr cnt c) l).getD 0 = if l = c then (cnt l).getD 0 + 1 else (cnt l).getD 0 := by
  unfold incr setKey
  split
  · next h => subst h; rfl
  · rfl

theorem incr_isSome (cnt : CountMap) (c l : Char) :
    ((incr cnt c) l).isSome = true ↔ l = c ∨ (cnt l).isSome = true := by
  unfold incr setKey
  split <;> simp [*]

theorem foldl_incr_sum (L : List Char) (hL : L.Nodup) (word : Str) :
    ∀ cnt : CountMap, (∀ c ∈ word, c ∈ L) →
    (L.map fun l => ((word.foldl incr cnt) l).getD 0).sum
      = (L.map fun l => (cnt l).getD 0).sum + word.length := by
  induction word with
  | nil => intro cnt _; rfl
  | cons c w ih =>
    intro cnt h
    rw [List.foldl_cons, ih _ (fun x hx => h x (List.mem_cons_of_mem _ hx))]
    have := sum_map_indicator c (fun l => (cnt l).getD 0) L hL
      (h c (List.mem_cons_self _ _))
    simp only [incr_getD, this, List.length_cons]
    omega

theorem foldl_incr_total (word : Str) (cnt : CountMap) (h : ∀ c ∈ word, c ∈ letters) :
    (letters.map fun l => ((word.foldl incr cnt) l).getD 0).sum
      = (letters.map fun l => (cnt l).getD 0).sum + word.length :=
  foldl_incr_sum letters letters_nodup word cnt h

theorem foldl_incr_isSome (word : Str) : ∀ (cnt : CountMap) (l : Char),
    ((word.foldl incr cnt) l).isSome = true ↔ l ∈ word ∨ (cnt l).isSome = true := by
  induction word with
  | nil => intro cnt l; simp
  | cons c w ih =>
    intro cnt l
    rw [List.foldl_cons, ih, incr_isSome]
    simp only [List.mem_cons]
    tauto

theorem foldl_incr_getD (word : Str) : ∀ (cnt : CountMap) (l : Char),
    ((word.foldl incr cnt) l).getD 0 = (cnt l).getD 0 + word.count l := by
  induction word with
  | nil => intro cnt l; simp
  | cons c w ih =>
    intro cnt l
    rw [List.foldl_cons, ih, incr_getD, List.count_cons]
    by_cases h : l = c
    · subst h; simp; omega
    · have : ¬ (c == l) = true := by simpa using fun e => h e.symm
      simp [h, this]

theorem hasKey_false_iff (words : WordMap) (word : Str) :
    hasKey words word = false ↔ ∀ e ∈ words, e.1 ≠ word := by
  unfold hasKey
  rw [← Bool.not_eq_true, List.lookup_isSome_iff]
  simp only [beq_iff_eq, not_exists, not_and]
  constructor
  · intro h e he hw; exact h e he hw.symm
  · intro h e he hw; exact h e he hw.symm

theorem setWord_of_absent (words : WordMap) (word : Str) (arr : List Char)
    (h : hasKey words word = false) : setWord words word arr = (word, arr) :: words := by
  unfold setWord
  congr 1
  rw [List.filter_eq_self]
  intro e he
  simpa using (hasKey_false_iff _ _).1 h e he

/-- Admitting a word of `n` alphabet letters keeps the bucket invariant. -/
theorem BucketInv.addWordT {n : Nat} {words : WordMap} {cnt : CountMap}
    (inv : BucketInv n words cnt) (word : Str) (hlen : word.length = n)
    (hmem : ∀ c ∈ word, c ∈ letters) :
    BucketInv n (addWordT word words cnt).1 (addWordT word words cnt).2 := by
  unfold Wordle.addWordT
  split
  · exact inv
  · next hk =>
    have hk' : hasKey words word = false := by simpa using hk
    rw [setWord_of_absent _ _ _ hk']
    refine ⟨?_, ?_, ?_, ?_, ?_⟩
    · simp only [List.map_cons, List.nodup_cons, List.mem_map, not_exists, not_and]
      exact ⟨fun e he hw => (hasKey_false_iff _ _).1 hk' e he hw, inv.nodup⟩
    · intro e he
      rcases List.mem_cons.1 he with rfl | he
      · exact ⟨rfl, hlen, hmem⟩
      · exact inv.entry e he
    · intro c
      simp only [foldl_incr_isSome, inv.keys]
      constructor
      · rintro (h | h)
        · exact hmem c h
        · exact h
      · exact Or.inr
    · intro l
      rw [foldl_incr_getD, inv.occ l, List.map_cons, List.sum_cons]
      simp only
      omega
    · rw [foldl_incr_total word cnt hmem, inv.total, List.length_cons, hlen]
      ring

theorem inClass_letters (lower : Char → Char) (line : Str) (c : Char)
    (hc : c ∈ normalize lower line) (h : inClass c = true) : c ∈ letters := by
  rcases (inClass_iff c).1 h with h | h
  · exact h
  · exact absurd h (normalize_ne_yo lower line c hc)

theorem wordRgx_normalize (lower : Char → Char) (line : Str) (n : Nat)
    (h : wordRgx n (normalize lower line) = true) :
    (normalize lower line).length = n ∧ ∀ c ∈ normalize lower line, c ∈ letters :=
  ⟨((wordRgx_iff _ _).1 h).1,
    fun c hc => inClass_letters lower line c hc (((wordRgx_iff _ _).1 h).2 c hc)⟩

theorem wordRgx_of_letters (n : Nat) (w : Str) (hl : w.length = n)
    (h : ∀ c ∈ w, c ∈ letters) : wordRgx n w = true :=
  (wordRgx_iff n w).2 ⟨hl, fun c hc => (inClass_iff c).2 (Or.inl (h c hc))⟩

theorem Inv.scanLineT {s : State} (inv : Inv s) (lower : Char → Char) (line : Str) :
    Inv (scanLineT lower s line) := by
  unfold Wordle.scanLineT
  simp only
  split_ifs with h4 h5 h6 h7
  · rintro n (rfl | rfl | rfl | rfl)
    · exact (inv 4 (by simp)).addWordT _ (wordRgx_normalize _ _ _ h4).1 (wordRgx_normalize _ _ _ h4).2
    · exact inv 5 (by simp)
    · exact inv 6 (by simp)
    · exact inv 7 (by simp)
  · rintro n (rfl | rfl | rfl | rfl)
    · exact inv 4 (by simp)
    · exact (inv 5 (by simp)).addWordT _ (wordRgx_normalize _ _ _ h5).1 (wordRgx_normalize _ _ _ h5).2
    · exact inv 6 (by simp)
    · exact inv 7 (by simp)
  · rintro n (rfl | rfl | rfl | rfl)
    · exact inv 4 (by simp)
    · exact inv 5 (by simp)
    · exact (inv 6 (by simp)).addWordT _ (wordRgx_normalize _ _ _ h6).1 (wordRgx_normalize _ _ _ h6).2
    · exact inv 7 (by simp)
  · rintro n (rfl | rfl | rfl | rfl)
    · exact inv 4 (by simp)
    · exact inv 5 (by simp)
    · exact inv 6 (by simp)
    · exact (inv 7 (by simp)).addWordT _ (wordRgx_normalize _ _ _ h7).1 (wordRgx_normalize _ _ _ h7).2
  · exact inv

theorem Inv.foldl (lower : Char → Char) (lines : List Str) :
    ∀ {s : State}, Inv s → Inv (lines.foldl (Wordle.scanLineT lower) s) := by
  induction lines with
  | nil => intro s h; exact h
  | cons l ls ih => intro s h; exact ih (h.scanLineT lower l)

theorem Inv.rateAll {s : State} (inv : Inv s) : Inv (rateAll s) := by
  rintro n (rfl | rfl | rfl | rfl) <;> exact inv _ (by simp)

theorem Inv.scanFileT {s : State} (inv : Inv s) (lower : Char → Char) (lines : List Str) :
    Inv (scanFileT lower s lines) :=
  (Inv.foldl lower lines inv).rateAll

theorem scanFile_eq (lower : Char → Char) (s : State) (lines : List Str) :
    scanFile lower s lines = some (scanFileT lower s lines) := by
  unfold scanFile scanFileT
  rw [scanLines_eq]; rfl

theorem scanFiles_eq (lower : Char → Char) (files : List (List Str)) : ∀ s : State,
    scanFiles lower s files = some (files.foldl (scanFileT lower) s) := by
  induction files with
  | nil => intro s; rfl
  | cons f fs ih =>
    intro s
    simp only [scanFiles, List.foldlM_cons, scanFile_eq, List.foldl_cons,
      Option.bind_eq_bind, Option.some_bind]
    exact ih _

theorem Inv.scanFiles (lower : Char → Char) (files : List (List Str)) :
    ∀ {s : State}, Inv s → Inv (files.foldl (Wordle.scanFileT lower) s) := by
  induction files with
  | nil => intro s h; exact h
  | cons f fs ih => intro s h; exact ih (h.scanFileT lower f)

theorem initLetterCounts_fold (L : List Char) : ∀ s : State,
    let t := L.foldl (fun s letter =>
      { s with letterCount4 := setKey s.letterCount4 letter 0
               letterCount5 := setKey s.letterCount5 letter 0
               letterCount6 := setKey s.letterCount6 letter 0
               letterCount7 := setKey s.letterCount7 letter 0 }) s
    (∀ n, t.words n = s.words n) ∧ (∀ n, t.letterRating n = s.letterRating n) ∧
    ∀ n, n = 4 ∨ n = 5 ∨ n = 6 ∨ n = 7 →
      ∀ c, t.letterCount n c = if c ∈ L then some 0 else s.letterCount n c := by
  induction L with
  | nil => intro s; simp
  | cons a L ih =>
    intro s
    simp only [List.foldl_cons]
    obtain ⟨h1, h2, h3⟩ := ih { s with letterCount4 := setKey s.letterCount4 a 0
                                       letterCount5 := setKey s.letterCount5 a 0
                                       letterCount6 := setKey s.letterCount6 a 0
                                       letterCount7 := setKey s.letterCount7 a 0 }
    refine ⟨fun n => ?_, fun n => ?_, ?_⟩
    · rw [h1]; unfold State.words; rfl
    · rw [h2]; unfold State.letterRating; rfl
    · rintro n hn c
      rw [h3 n hn]
      by_cases hc : c ∈ L
      · simp [hc]
      · rcases hn with rfl | rfl | rfl | rfl <;>
          simp only [hc, if_false, State.letterCount, setKey, List.mem_cons, or_false]

theorem initState_words (n : Nat) : initState.words n = [] := by
  have := (initLetterCounts_fold letters emptyState).1 n
  rw [show initState.words n = _ from this]
  unfold State.words emptyState
  split <;> rfl

theorem initState_letterRating (n : Nat) : initState.letterRating n = fun _ => none := by
  have := (initLetterCounts_fold letters emptyState).2.1 n
  rw [show initState.letterRating n = _ from this]
  unfold State.letterRating emptyState
  split <;> rfl

theorem initState_letterCount (n : Nat) (hn : n = 4 ∨ n = 5 ∨ n = 6 ∨ n = 7) (c : Char) :
    initState.letterCount n c = if c ∈ letters then some 0 else none := by
  have := (initLetterCounts_fold letters emptyState).2.2 n hn c
  rw [show initState.letterCount n c = _ from this]
  rcases hn with rfl | rfl | rfl | rfl <;> rfl

/-- The initial state satisfies the invariant. -/
theorem Inv.initState : Inv initState := by
  intro n hn
  refine ⟨?_, ?_, ?_, ?_, ?_⟩
  · rw [initState_words]; simp
  · rw [initState_words]; simp
  · intro c
    rw [initState_letterCount n hn]
    split <;> simp [*]
  · intro l
    rw [initState_words, initState_letterCount n hn]
    split <;> simp
  · rw [initState_words]
    simp only [initState_letterCount n hn, List.length_nil, zero_mul]
    apply List.sum_eq_zero
    intro x hx
    simp only [List.mem_map] at hx
    obtain ⟨l, hl, rfl⟩ := hx
    simp [hl]

/-- Claim C1 (count conservation).  Scanning any sequence of files, hence any
sequence of lines, from the initial state ends without panic, and for each
length `n` in 4..7 the counts of the 32 letters add up to `len(words_n) * n`;
no other key is counted. -/
theorem count_conservation (lower : Char → Char) (files : List (List Str)) :
    ∃ s, scanFiles lower initState files = some s ∧
      ∀ n, n = 4 ∨ n = 5 ∨ n = 6 ∨ n = 7 →
        (letters.map fun letter => ((s.letterCount n letter).getD 0)).sum
          = (s.words n).length * n ∧
        ∀ c, c ∉ letters → s.letterCount n c = none := by
  refine ⟨_, scanFiles_eq lower files initState, fun n hn => ?_⟩
  have inv := Inv.scanFiles lower files Inv.initState n hn
  refine ⟨inv.total, fun c hc => ?_⟩
  have h := mt (inv.keys c).1 hc
  cases hv : (List.foldl (scanFileT lower) initState files).letterCount n c with
  | none => rfl
  | some v => rw [hv] at h; simp at h

theorem hasKey_setWord (m : WordMap) (w : Str) (a : List Char) :
    hasKey (setWord m w a) w = true := by
  simp [hasKey, setWord]

theorem addWordT_idem (w : Str) (ws : WordMap) (c : CountMap) :
    addWordT w (addWordT w ws c).1 (addWordT w ws c).2 = addWordT w ws c := by
  by_cases h : hasKey ws w = true
  · simp [addWordT, h]
  · have h1 : addWordT w ws c = (setWord ws w w, w.foldl incr c) := by simp [addWordT, h]
    rw [h1]
    simp [addWordT, hasKey_setWord]

/-- A second line with the same normalized form changes nothing. -/
theorem scanLineT_idem (lower : Char → Char) (s : State) (l1 l2 : Str)
    (h : normalize lower l1 = normalize lower l2) :
    scanLineT lower (scanLineT lower s l1) l2 = scanLineT lower s l1 := by
  unfold scanLineT
  simp only [← h]
  split_ifs with h4 h5 h6 h7 <;> simp only [addWordT_idem, if_true, if_false, *]

/-- A line matching the expression of length `n` acts on bucket `n` only. -/
theorem scanLineT_words_of_rgx (lower : Char → Char) (s : State) (line : Str) (n : Nat)
    (hn : n = 4 ∨ n = 5 ∨ n = 6 ∨ n = 7) (h : wordRgx n (normalize lower line) = true) :
    (scanLineT lower s line).words n
        = (addWordT (normalize lower line) (s.words n) (s.letterCount n)).1 ∧
    (scanLineT lower s line).letterCount n
        = (addWordT (normalize lower line) (s.words n) (s.letterCount n)).2 ∧
    ∀ m, m ≠ n → (scanLineT lower s line).words m = s.words m ∧
      (scanLineT lower s line).letterCount m = s.letterCount m := by
  have hl := ((wordRgx_iff _ _).1 h).1
  have h4 : ∀ k, k ≠ n → wordRgx k (normalize lower line) = false := by
    intro k hk
    rw [← Bool.not_eq_true, wordRgx_iff]
    rintro ⟨h', _⟩; exact hk (h'.symm.trans hl)
  unfold scanLineT
  rcases hn with rfl | rfl | rfl | rfl
  · simp only [h, if_true]
    refine ⟨rfl, rfl, fun m hm => ?_⟩
    unfold State.words State.letterCount
    split <;> first | exact absurd rfl hm | exact ⟨rfl, rfl⟩
  · simp only [h, h4 4 (by decide), if_true, if_false, Bool.false_eq_true]
    refine ⟨rfl, rfl, fun m hm => ?_⟩
    unfold State.words State.letterCount
    split <;> first | exact absurd rfl hm | exact ⟨rfl, rfl⟩
  · simp only [h, h4 4 (by decide), h4 5 (by decide), if_true, if_false, Bool.false_eq_true]
    refine ⟨rfl, rfl, fun m hm => ?_⟩
    unfold State.words State.letterCount
    split <;> first | exact absurd rfl hm | exact ⟨rfl, rfl⟩
  · simp only [h, h4 4 (by decide), h4 5 (by decide), h4 6 (by decide), if_true, if_false,
      Bool.false_eq_true]
    refine ⟨rfl, rfl, fun m hm => ?_⟩
    unfold State.words State.letterCount
    split <;> first | exact absurd rfl hm | exact ⟨rfl, rfl⟩

theorem scanLineT_letterRating (lower : Char → Char) (s : State) (line : Str) (n : Nat) :
    (scanLineT lower s line).letterRating n = s.letterRating n := by
  unfold scanLineT
  simp only
  split_ifs <;> rfl

theorem scanLineT_skip (lower : Char → Char) (s : State) (line : Str)
    (h : ∀ n, n = 4 ∨ n = 5 ∨ n = 6 ∨ n = 7 → wordRgx n (normalize lower line) = false) :
    scanLineT lower s line = s := by
  unfold scanLineT
  simp [h]

/-- Claim C2 (dedup idempotence).  In every state, when two lines have the same
normalized form, processing the first and then the second gives exactly the
state reached after the first alone (partitions, counts and ratings).  When
the word is admitted to bucket `n` by the first line, it is entered once and
each letter's count grows by its number of occurrences in the word. -/
theorem dedup_idempotence (lower : Char → Char) (s : State) (line1 line2 : Str)
    (h : normalize lower line1 = normalize lower line2) :
    ∃ s1, scanLine lower s line1 = some s1 ∧ scanLine lower s1 line2 = some s1 ∧
      ∀ n, n = 4 ∨ n = 5 ∨ n = 6 ∨ n = 7 → wordRgx n (normalize lower line1) = true →
        hasKey (s.words n) (normalize lower line1) = false →
          s1.words n = (normalize lower line1, normalize lower line1) :: s.words n ∧
          ∀ letter, ((s1.letterCount n letter).getD 0)
            = ((s.letterCount n letter).getD 0) + (normalize lower line1).count letter := by
  refine ⟨_, scanLine_eq lower s line1, ?_, ?_⟩
  · rw [scanLine_eq, scanLineT_idem lower s line1 line2 h]
  · intro n hn hr hk
    obtain ⟨hw, hc, _⟩ := scanLineT_words_of_rgx lower s line1 n hn hr
    rw [hw, hc]
    have : addWordT (normalize lower line1) (s.words n) (s.letterCount n)
        = (setWord (s.words n) (normalize lower line1) (normalize lower line1),
            (normalize lower line1).foldl incr (s.letterCount n)) := by
      simp [addWordT, hk]
    rw [this]
    exact ⟨setWord_of_absent _ _ _ hk, fun l => foldl_incr_getD _ _ _⟩

/-- Witness of C2: the lines ` Слон` and `слон ` from the initial state. -/
theorem dedup_idempotence_witness :
    normalize cyrLower " Слон".toList = normalize cyrLower "слон ".toList ∧
    ∃ s1, scanLine cyrLower initState " Слон".toList = some s1 ∧
      scanLine cyrLower s1 "слон ".toList = some s1 :=
  ⟨by decide, (dedup_idempotence cyrLower initState _ _ (by decide)).imp
    fun _ h => ⟨h.1, h.2.1⟩⟩

/-- Claim C10 (partition and alphabet invariant).  The alphabet has 32 distinct
letters and no `ё`.  Scanning any files from the initial state never panics
on the array index, and in the final state every key of `words_n` is unique,
has exactly `n` letters, all of the alphabet, and is stored with exactly its
own `n` letters in order; the keys of `letterCount_n` are exactly the 32
letters. -/
theorem partition_alphabet_invariant :
    letters.length = 32 ∧ letters.Nodup ∧ 'ё' ∉ letters ∧
    ∀ (lower : Char → Char) (files : List (List Str)),
      ∃ s, scanFiles lower initState files = some s ∧
        ∀ n, n = 4 ∨ n = 5 ∨ n = 6 ∨ n = 7 →
          ((s.words n).map Prod.fst).Nodup ∧
          (∀ e ∈ s.words n, e.1.length = n ∧ (∀ c ∈ e.1, c ∈ letters) ∧
            e.2 = e.1 ∧ e.2.length = n) ∧
          ∀ c, (s.letterCount n c).isSome = true ↔ c ∈ letters := by
  refine ⟨by decide, letters_nodup, by decide, fun lower files => ?_⟩
  refine ⟨_, scanFiles_eq lower files initState, fun n hn => ?_⟩
  have inv := Inv.scanFiles lower files Inv.initState n hn
  refine ⟨inv.nodup, fun e he => ?_, inv.keys⟩
  obtain ⟨h1, h2, h3⟩ := inv.entry e he
  exact ⟨h2, h3, h1, h1 ▸ h2⟩

theorem no_rgx_of_not_letters (w : Str)
    (h : ∀ n, n = 4 ∨ n = 5 ∨ n = 6 ∨ n = 7 → ¬ (w.length = n ∧ ∀ c ∈ w, c ∈ letters))
    (hyo : ∀ c ∈ w, c ≠ 'ё') :
    ∀ n, n = 4 ∨ n = 5 ∨ n = 6 ∨ n = 7 → wordRgx n w = false := by
  intro n hn
  rw [← Bool.not_eq_true, wordRgx_iff]
  rintro ⟨hl, hc⟩
  refine h n hn ⟨hl, fun c hcw => ?_⟩
  rcases (inClass_iff c).1 (hc c hcw) with h' | h'
  · exact h'
  · exact absurd h' (hyo c hcw)

/-- Claim C8 (line filtering).  A line whose normalized form is not a word of 4,
5, 6 or 7 alphabet letters leaves the state unchanged, without error.  A line
whose normalized form has exactly `n` alphabet letters leaves the partition
and the counts of every other length, and all ratings, unchanged.  On the
lines `кот`, `коты`, `слон`, `слон`, `zz1x`: `кот` and `zz1x` enter no
partition, `коты` and `слон` are in `words4`, which has two entries, and the
letters of `слон` are counted once (`о` twice, with `коты`). -/
theorem line_filtering :
    (∀ (lower : Char → Char) (s : State) (line : Str),
      (∀ n, n = 4 ∨ n = 5 ∨ n = 6 ∨ n = 7 →
        ¬ ((normalize lower line).length = n ∧ ∀ c ∈ normalize lower line, c ∈ letters)) →
      scanLine lower s line = some s) ∧
    (∀ (lower : Char → Char) (s : State) (line : Str) (n : Nat),
      n = 4 ∨ n = 5 ∨ n = 6 ∨ n = 7 → (normalize lower line).length = n →
      (∀ c ∈ normalize lower line, c ∈ letters) →
      ∃ t, scanLine lower s line = some t ∧
        (∀ m, m ≠ n → t.words m = s.words m ∧ t.letterCount m = s.letterCount m) ∧
        ∀ m, t.letterRating m = s.letterRating m) ∧
    ∃ s, scanLines cyrLower initState
        ["кот".toList, "коты".toList, "слон".toList, "слон".toList, "zz1x".toList] = some s ∧
      hasKey s.words4 "кот".toList = false ∧ hasKey s.words5 "кот".toList = false ∧
      hasKey s.words6 "кот".toList = false ∧ hasKey s.words7 "кот".toList = false ∧
      hasKey s.words4 "zz1x".toList = false ∧ hasKey s.words5 "zz1x".toList = false ∧
      hasKey s.words6 "zz1x".toList = false ∧ hasKey s.words7 "zz1x".toList = false ∧
      hasKey s.words4 "коты".toList = true ∧ hasKey s.words4 "слон".toList = true ∧
      s.words4.length = 2 ∧
      s.letterCount4 'с' = some 1 ∧ s.letterCount4 'л' = some 1 ∧
      s.letterCount4 'о' = some 2 ∧ s.letterCount4 'н' = some 1 := by
  refine ⟨fun lower s line h => ?_, fun lower s line n hn hl hc => ?_, ?_⟩
  · rw [scanLine_eq, scanLineT_skip lower s line
      (no_rgx_of_not_letters _ h (normalize_ne_yo lower line))]
  · refine ⟨_, scanLine_eq lower s line, ?_, fun m => scanLineT_letterRating lower s line m⟩
    exact (scanLineT_words_of_rgx lower s line n hn (wordRgx_of_letters n _ hl hc)).2.2
  · refine ⟨_, scanLines_eq _ _ _, ?_⟩
    decide

theorem addWordT_keys_mono (w : Str) (ws : WordMap) (cnt : CountMap) (c : Char)
    (h : (cnt c).isSome = true) : ((addWordT w ws cnt).2 c).isSome = true := by
  unfold addWordT
  split
  · exact h
  · exact (foldl_incr_isSome w cnt c).2 (Or.inr h)

theorem scanLineT_keys_mono (lower : Char → Char) (s : State) (line : Str) (n : Nat) (c : Char)
    (h : (s.letterCount n c).isSome = true) :
    ((scanLineT lower s line).letterCount n c).isSome = true := by
  by_cases hex : ∃ k, (k = 4 ∨ k = 5 ∨ k = 6 ∨ k = 7) ∧ wordRgx k (normalize lower line) = true
  · obtain ⟨k, hk, hr⟩ := hex
    obtain ⟨_, hc, hm⟩ := scanLineT_words_of_rgx lower s line k hk hr
    by_cases hnk : n = k
    · subst hnk
      rw [hc]; exact addWordT_keys_mono _ _ _ _ h
    · rw [(hm n hnk).2]; exact h
  · rw [scanLineT_skip lower s line]
    · exact h
    · intro k hk
      rw [← Bool.not_eq_true]
      exact fun hr => hex ⟨k, hk, hr⟩

theorem foldl_keys_mono (lower : Char → Char) (lines : List Str) (n : Nat) (c : Char) :
    ∀ s : State, (s.letterCount n c).isSome = true →
      (((lines.foldl (scanLineT lower) s)).letterCount n c).isSome = true := by
  induction lines with
  | nil => intro s h; exact h
  | cons l ls ih => intro s h; exact ih _ (scanLineT_keys_mono lower s l n c h)

theorem rate_rate (cnt cnt' : CountMap) (len len' n : Nat) (r : RatingMap)
    (h : ∀ c, (cnt c).isSome = true → (cnt' c).isSome = true) :
    rate cnt' len' n (rate cnt len n r) = rate cnt' len' n r := by
  funext c
  unfold rate
  cases hc' : cnt' c with
  | some v => rfl
  | none =>
    cases hc : cnt c with
    | some v => have := h c (by simp [hc]); simp [hc'] at this
    | none => rfl

theorem scanLineT_withRatings (lower : Char → Char) (s : State) (line : Str)
    (r4 r5 r6 r7 : RatingMap) :
    scanLineT lower (withRatings s r4 r5 r6 r7) line
      = withRatings (scanLineT lower s line) r4 r5 r6 r7 := by
  unfold scanLineT withRatings
  simp only
  split_ifs <;> rfl

theorem foldl_withRatings (lower : Char → Char) (lines : List Str) (r4 r5 r6 r7 : RatingMap) :
    ∀ s : State,
    lines.foldl (scanLineT lower) (withRatings s r4 r5 r6 r7)
      = withRatings (lines.foldl (scanLineT lower) s) r4 r5 r6 r7 := by
  induction lines with
  | nil => intro s; rfl
  | cons l ls ih =>
    intro s
    rw [List.foldl_cons, scanLineT_withRatings, ih, List.foldl_cons]

theorem rateAll_eq (s : State) :
    rateAll s = withRatings s
      (rate s.letterCount4 s.words4.length 4 s.letterRating4)
      (rate s.letterCount5 s.words5.length 5 s.letterRating5)
      (rate s.letterCount6 s.words6.length 6 s.letterRating6)
      (rate s.letterCount7 s.words7.length 7 s.letterRating7) := rfl

theorem foldl_letterRating (lower : Char → Char) (lines : List Str) (n : Nat) :
    ∀ s : State, (lines.foldl (scanLineT lower) s).letterRating n = s.letterRating n := by
  induction lines with
  | nil => intro s; rfl
  | cons l ls ih =>
    intro s
    rw [List.foldl_cons, ih, scanLineT_letterRating]

/-- Ratings computed before more lines are scanned are overwritten by the
ratings computed after them. -/
theorem rateAll_foldl_rateAll (lower : Char → Char) (lines : List Str) (s : State) :
    rateAll (lines.foldl (scanLineT lower) (rateAll s))
      = rateAll (lines.foldl (scanLineT lower) s) := by
  have h4 := foldl_letterRating lower lines 4 s
  have h5 := foldl_letterRating lower lines 5 s
  have h6 := foldl_letterRating lower lines 6 s
  have h7 := foldl_letterRating lower lines 7 s
  have k4 := fun c => foldl_keys_mono lower lines 4 c s
  have k5 := fun c => foldl_keys_mono lower lines 5 c s
  have k6 := fun c => foldl_keys_mono lower lines 6 c s
  have k7 := fun c => foldl_keys_mono lower lines 7 c s
  simp only [State.letterRating, State.letterCount] at h4 h5 h6 h7 k4 k5 k6 k7
  rw [rateAll_eq s, foldl_withRatings, rateAll_eq, rateAll_eq]
  simp only [withRatings, rate_rate _ _ _ _ _ _ k4, rate_rate _ _ _ _ _ _ k5,
    rate_rate _ _ _ _ _ _ k6, rate_rate _ _ _ _ _ _ k7, h4, h5, h6, h7]

theorem scanFileT_append (lower : Char → Char) (s : State) (a b : List Str) :
    scanFileT lower (scanFileT lower s a) b = scanFileT lower s (a ++ b) := by
  unfold scanFileT
  rw [rateAll_foldl_rateAll, List.foldl_append]

theorem scanFiles_join (lower : Char → Char) (files : List (List Str)) :
    ∀ (s : State) (file : List Str),
      (file :: files).foldl (scanFileT lower) s = scanFileT lower s (file ++ files.flatten) := by
  induction files with
  | nil => intro s file; simp
  | cons g gs ih =>
    intro s file
    rw [List.foldl_cons, ih, scanFileT_append, List.flatten_cons]

theorem rateAll_rated (s : State) (n : Nat) (hn : n = 4 ∨ n = 5 ∨ n = 6 ∨ n = 7)
    (letter : Char) :
    (rateAll s).letterRating n letter
      = match (rateAll s).letterCount n letter with
        | some count => some (rating count ((rateAll s).words n).length n)
        | none => s.letterRating n letter := by
  rcases hn with rfl | rfl | rfl | rfl <;> rfl

/-- Claim C9 (multi-source additivity).  From any state, scanning file `a` and
then file `b` gives the same result (partitions, counts, ratings) as scanning
the lines of `a` followed by the lines of `b` as one file; likewise for any
non-empty sequence of files.  In the final state the rating of every counted
letter is the one computed from the accumulated count and partition size. -/
theorem multi_source_additivity (lower : Char → Char) (s : State) (a b : List Str) :
    scanFiles lower s [a, b] = scanFile lower s (a ++ b) ∧
    (∀ (file : List Str) (files : List (List Str)),
      scanFiles lower s (file :: files) = scanFile lower s (file ++ files.flatten)) ∧
    ∃ t, scanFiles lower s [a, b] = some t ∧
      ∀ n, n = 4 ∨ n = 5 ∨ n = 6 ∨ n = 7 → ∀ letter count,
        t.letterCount n letter = some count →
          t.letterRating n letter = some (rating count (t.words n).length n) := by
  have gen : ∀ (file : List Str) (files : List (List Str)),
      scanFiles lower s (file :: files) = scanFile lower s (file ++ files.flatten) := by
    intro file files
    rw [scanFiles_eq, scanFile_eq, scanFiles_join]
  refine ⟨by simpa using gen a [b], gen, ?_⟩
  refine ⟨_, (gen a [b]).trans (scanFile_eq _ _ _), fun n hn letter count hc => ?_⟩
  unfold scanFileT at hc ⊢
  rw [rateAll_rated _ n hn, hc]

/-! ## Rounding to `float64` -/

theorem bitLenAux_zero (fuel : Nat) : bitLenAux fuel 0 = 0 := by
  cases fuel <;> simp [bitLenAux]

theorem bitLenAux_spec : ∀ fuel n : Nat, 0 < n → n ≤ fuel →
    ∃ j, bitLenAux fuel n = j + 1 ∧ 2 ^ j ≤ n ∧ n < 2 ^ (j + 1) := by
  intro fuel
  induction fuel with
  | zero => intro n h1 h2; omega
  | succ fuel ih =>
    intro n h1 h2
    have hn : n ≠ 0 := by omega
    simp only [bitLenAux, hn, if_false]
    by_cases h : n / 2 = 0
    · refine ⟨0, by rw [h, bitLenAux_zero], ?_, ?_⟩ <;> omega
    · obtain ⟨j, hj, hlo, hhi⟩ := ih (n / 2) (by omega) (by omega)
      refine ⟨j + 1, by rw [hj], ?_, ?_⟩
      · rw [pow_succ]; omega
      · rw [pow_succ]; omega

theorem bitLen_spec (n : Nat) (h : 0 < n) :
    ∃ j, bitLen n = j + 1 ∧ 2 ^ j ≤ n ∧ n < 2 ^ (j + 1) :=
  bitLenAux_spec n n h le_rfl

/-- The exponent brackets a positive rational: `2 ^ e ≤ q < 2 ^ (e + 1)`. -/
theorem ilog2_spec (q : ℚ) (hq : 0 < q) :
    (2 : ℚ) ^ ilog2 q ≤ q ∧ q < (2 : ℚ) ^ (ilog2 q + 1) := by
  have hnum : 0 < q.num := Rat.num_pos.2 hq
  obtain ⟨a, ha, ha1, ha2⟩ := bitLen_spec q.num.toNat (by omega)
  obtain ⟨b, hb, hb1, hb2⟩ := bitLen_spec q.den q.den_pos
  have hd : (0 : ℚ) < q.den := by exact_mod_cast q.den_pos
  have hqe : q = (q.num.toNat : ℚ) / (q.den : ℚ) := by
    have : ((q.num.toNat : ℤ) : ℚ) = (q.num : ℚ) := by
      rw [Int.toNat_of_nonneg hnum.le]
    rw [← Int.cast_natCast, this, Rat.num_div_den]
  have ha1' : (2 : ℚ) ^ (a : ℤ) ≤ (q.num.toNat : ℚ) := by
    rw [zpow_natCast]; exact_mod_cast ha1
  have ha2' : (q.num.toNat : ℚ) < (2 : ℚ) ^ ((a : ℤ) + 1) := by
    rw [show ((a : ℤ) + 1) = ((a + 1 : ℕ) : ℤ) by push_cast; ring, zpow_natCast]
    exact_mod_cast ha2
  have hb1' : (2 : ℚ) ^ (b : ℤ) ≤ (q.den : ℚ) := by
    rw [zpow_natCast]; exact_mod_cast hb1
  have hb2' : (q.den : ℚ) < (2 : ℚ) ^ ((b : ℤ) + 1) := by
    rw [show ((b : ℤ) + 1) = ((b + 1 : ℕ) : ℤ) by push_cast; ring, zpow_natCast]
    exact_mod_cast hb2
  have h2 : (0 : ℚ) < 2 := by norm_num
  have e0 : ((bitLen q.num.toNat : ℤ) - (bitLen q.den : ℤ)) = (a : ℤ) - b := by
    rw [ha, hb]; push_cast; ring
  have hup : q < (2 : ℚ) ^ ((a : ℤ) - b + 1) := by
    rw [hqe, div_lt_iff₀ hd]
    calc (q.num.toNat : ℚ) < (2 : ℚ) ^ ((a : ℤ) + 1) := ha2'
      _ = (2 : ℚ) ^ ((a : ℤ) - b + 1) * (2 : ℚ) ^ (b : ℤ) := by
          rw [← zpow_add₀ h2.ne']; congr 1; ring
      _ ≤ (2 : ℚ) ^ ((a : ℤ) - b + 1) * (q.den : ℚ) :=
          mul_le_mul_of_nonneg_left hb1' (zpow_pos h2 _).le
  have hlo : (2 : ℚ) ^ ((a : ℤ) - b - 1) ≤ q := by
    rw [hqe, le_div_iff₀ hd]
    calc (2 : ℚ) ^ ((a : ℤ) - b - 1) * (q.den : ℚ)
        ≤ (2 : ℚ) ^ ((a : ℤ) - b - 1) * (2 : ℚ) ^ ((b : ℤ) + 1) :=
          mul_le_mul_of_nonneg_left hb2'.le (zpow_pos h2 _).le
      _ = (2 : ℚ) ^ (a : ℤ) := by
          rw [← zpow_add₀ h2.ne']; congr 1; ring
      _ ≤ (q.num.toNat : ℚ) := ha1'
  unfold ilog2
  simp only [e0]
  split_ifs with h
  · exact ⟨h, hup⟩
  · refine ⟨hlo, ?_⟩
    rw [sub_add_cancel]
    exact lt_of_not_le h

theorem two_zpow_lt_iff (m n : ℤ) : (2 : ℚ) ^ m < (2 : ℚ) ^ n ↔ m < n :=
  zpow_lt_zpow_iff_right₀ (by norm_num)

theorem ilog2_unique (q : ℚ) (e : ℤ) (h1 : (2 : ℚ) ^ e ≤ q) (h2 : q < (2 : ℚ) ^ (e + 1)) :
    ilog2 q = e := by
  have hq : 0 < q := lt_of_lt_of_le (zpow_pos (by norm_num) _) h1
  obtain ⟨s1, s2⟩ := ilog2_spec q hq
  have a1 := (two_zpow_lt_iff _ _).1 (lt_of_le_of_lt s1 h2)
  have a2 := (two_zpow_lt_iff _ _).1 (lt_of_le_of_lt h1 s2)
  omega

theorem ilog2_mono (x y : ℚ) (hx : 0 < x) (h : x ≤ y) : ilog2 x ≤ ilog2 y := by
  obtain ⟨s1, _⟩ := ilog2_spec x hx
  obtain ⟨_, t2⟩ := ilog2_spec y (lt_of_lt_of_le hx h)
  have := (two_zpow_lt_iff _ _).1 (lt_of_le_of_lt (s1.trans h) t2)
  omega

theorem rhe_floor_le (x : ℚ) : ⌊x⌋ ≤ roundHalfEven x := by
  unfold roundHalfEven
  simp only
  split_ifs <;> omega

theorem rhe_le_floor_succ (x : ℚ) : roundHalfEven x ≤ ⌊x⌋ + 1 := by
  unfold roundHalfEven
  simp only
  split_ifs <;> omega

/-- Rounding to an integer moves a number by at most 1/2. -/
theorem rhe_abs_sub_le (x : ℚ) : |(roundHalfEven x : ℚ) - x| ≤ 1 / 2 := by
  have h1 := Int.floor_le x
  have h2 := Int.lt_floor_add_one x
  unfold roundHalfEven
  simp only
  rw [abs_le]
  split_ifs with a b c
  · constructor <;> linarith
  · push_cast; constructor <;> linarith
  · constructor <;> linarith
  · push_cast; constructor <;> linarith

theorem rhe_intCast (m : ℤ) : roundHalfEven (m : ℚ) = m := by
  unfold roundHalfEven
  simp

theorem rhe_natCast (m : ℕ) : roundHalfEven (m : ℚ) = m := by
  have := rhe_intCast (m : ℤ)
  simpa using this

/-- Rounding to an integer is monotone. -/
theorem rhe_mono {x y : ℚ} (h : x ≤ y) : roundHalfEven x ≤ roundHalfEven y := by
  have hf : ⌊x⌋ ≤ ⌊y⌋ := Int.floor_le_floor h
  rcases hf.lt_or_eq with hlt | heq
  · have := rhe_le_floor_succ x
    have := rhe_floor_le y
    omega
  · unfold roundHalfEven
    simp only [heq]
    split_ifs <;> first | omega | (exfalso; linarith)

theorem rhe_eq_of_abs_lt (x : ℚ) (m : ℤ) (h : |x - m| < 1 / 2) : roundHalfEven x = m := by
  have h1 := rhe_abs_sub_le x
  rw [abs_lt] at h
  rw [abs_le] at h1
  have h2 : ((roundHalfEven x - m : ℤ) : ℚ) < 1 := by push_cast; linarith
  have h3 : (-1 : ℚ) < ((roundHalfEven x - m : ℤ) : ℚ) := by push_cast; linarith
  have h2' : roundHalfEven x - m < 1 := by exact_mod_cast h2
  have h3' : -1 < roundHalfEven x - m := by exact_mod_cast h3
  omega

theorem RN_zero : RN 0 = 0 := by simp [RN]

theorem RN_of_nonpos {q : ℚ} (hq : q ≤ 0) : RN q = 0 := by simp [RN, hq]

theorem RN_of_pos {q : ℚ} (hq : 0 < q) :
    RN q = (roundHalfEven (q / 2 ^ (ilog2 q - 52)) : ℚ) * 2 ^ (ilog2 q - 52) := by
  simp [RN, not_le.2 hq]

theorem ulp_pos (e : ℤ) : (0 : ℚ) < 2 ^ (e - 52) := zpow_pos (by norm_num) _

theorem two_zpow_split (e : ℤ) (k : ℕ) :
    (2 : ℚ) ^ (e - 52 + k) = ((2 ^ k : ℤ) : ℚ) * 2 ^ (e - 52) := by
  rw [zpow_add₀ (by norm_num : (2 : ℚ) ≠ 0), zpow_natCast, mul_comm]
  push_cast; ring

theorem scaled_lo {q : ℚ} (hq : 0 < q) : ((2 ^ 52 : ℤ) : ℚ) ≤ q / 2 ^ (ilog2 q - 52) := by
  rw [le_div_iff₀ (ulp_pos _), ← two_zpow_split]
  have := (ilog2_spec q hq).1
  rwa [show ilog2 q - 52 + (52 : ℕ) = ilog2 q by push_cast; ring]

theorem scaled_hi {q : ℚ} (hq : 0 < q) : q / 2 ^ (ilog2 q - 52) < ((2 ^ 53 : ℤ) : ℚ) := by
  rw [div_lt_iff₀ (ulp_pos _), ← two_zpow_split]
  have := (ilog2_spec q hq).2
  rwa [show ilog2 q - 52 + (53 : ℕ) = ilog2 q + 1 by push_cast; ring]

theorem RN_lower {q : ℚ} (hq : 0 < q) : (2 : ℚ) ^ ilog2 q ≤ RN q := by
  rw [RN_of_pos hq]
  have h := rhe_mono (scaled_lo hq)
  rw [rhe_intCast] at h
  have h' : ((2 ^ 52 : ℤ) : ℚ) ≤ (roundHalfEven (q / 2 ^ (ilog2 q - 52)) : ℚ) := by
    exact_mod_cast h
  calc (2 : ℚ) ^ ilog2 q = ((2 ^ 52 : ℤ) : ℚ) * 2 ^ (ilog2 q - 52) := by
        rw [← two_zpow_split]; congr 1; push_cast; ring
    _ ≤ _ := mul_le_mul_of_nonneg_right h' (ulp_pos _).le

theorem RN_upper {q : ℚ} (hq : 0 < q) : RN q ≤ (2 : ℚ) ^ (ilog2 q + 1) := by
  rw [RN_of_pos hq]
  have h := rhe_mono (scaled_hi hq).le
  rw [rhe_intCast] at h
  have h' : (roundHalfEven (q / 2 ^ (ilog2 q - 52)) : ℚ) ≤ ((2 ^ 53 : ℤ) : ℚ) := by
    exact_mod_cast h
  calc _ ≤ ((2 ^ 53 : ℤ) : ℚ) * 2 ^ (ilog2 q - 52) :=
        mul_le_mul_of_nonneg_right h' (ulp_pos _).le
    _ = (2 : ℚ) ^ (ilog2 q + 1) := by
        rw [← two_zpow_split]; congr 1; push_cast; ring

theorem RN_pos {q : ℚ} (hq : 0 < q) : 0 < RN q :=
  lt_of_lt_of_le (zpow_pos (by norm_num) _) (RN_lower hq)

theorem RN_nonneg (q : ℚ) : 0 ≤ RN q := by
  rcases le_or_lt q 0 with h | h
  · rw [RN_of_nonpos h]
  · exact (RN_pos h).le

/-- Rounding to `float64` is monotone. -/
theorem RN_mono {x y : ℚ} (h : x ≤ y) : RN x ≤ RN y := by
  rcases le_or_lt x 0 with hx | hx
  · rw [RN_of_nonpos hx]; exact RN_nonneg y
  · have hy : 0 < y := lt_of_lt_of_le hx h
    rcases (ilog2_mono x y hx h).lt_or_eq with hlt | heq
    · calc RN x ≤ (2 : ℚ) ^ (ilog2 x + 1) := RN_upper hx
        _ ≤ (2 : ℚ) ^ ilog2 y := zpow_le_zpow_right₀ (by norm_num) (by omega)
        _ ≤ RN y := RN_lower hy
    · rw [RN_of_pos hx, RN_of_pos hy, heq]
      apply mul_le_mul_of_nonneg_right _ (ulp_pos _).le
      have : x / 2 ^ (ilog2 y - 52) ≤ y / 2 ^ (ilog2 y - 52) :=
        div_le_div_of_nonneg_right h (ulp_pos _).le
      exact_mod_cast rhe_mono this

/-- Rounding to `float64` has relative error at most `2 ^ -53`. -/
theorem RN_abs_sub_le {q : ℚ} (hq : 0 < q) : |RN q - q| ≤ q * (1 / 2 ^ 53) := by
  have hu := ulp_pos (ilog2 q)
  have h1 := rhe_abs_sub_le (q / 2 ^ (ilog2 q - 52))
  have h2 : RN q - q
      = ((roundHalfEven (q / 2 ^ (ilog2 q - 52)) : ℚ) - q / 2 ^ (ilog2 q - 52))
        * 2 ^ (ilog2 q - 52) := by
    rw [RN_of_pos hq, sub_mul, div_mul_cancel₀ _ hu.ne']
  rw [h2, abs_mul, abs_of_pos hu]
  have h3 : (2 : ℚ) ^ (ilog2 q - 52) = (2 : ℚ) ^ ilog2 q * (1 / 2 ^ 52) := by
    rw [zpow_sub₀ (by norm_num : (2 : ℚ) ≠ 0)]
    norm_num [div_eq_mul_inv]
  calc _ ≤ (1 / 2) * (2 : ℚ) ^ (ilog2 q - 52) := mul_le_mul_of_nonneg_right h1 hu.le
    _ = (2 : ℚ) ^ ilog2 q * (1 / 2 ^ 53) := by rw [h3]; ring
    _ ≤ q * (1 / 2 ^ 53) := mul_le_mul_of_nonneg_right (ilog2_spec q hq).1 (by positivity)

theorem RN_one : RN 1 = 1 := by decide!

theorem RN_thousand : RN 1000 = 1000 := by decide!

theorem RN_le_mul {q : ℚ} (hq : 0 ≤ q) : RN q ≤ q * (1 + 1 / 2 ^ 53) := by
  rcases hq.lt_or_eq with h | h
  · have := (abs_le.1 (RN_abs_sub_le h)).2
    linarith
  · rw [← h, RN_zero]; norm_num

theorem RN_ge_mul {q : ℚ} (hq : 0 ≤ q) : q * (1 - 1 / 2 ^ 53) ≤ RN q := by
  rcases hq.lt_or_eq with h | h
  · have := (abs_le.1 (RN_abs_sub_le h)).1
    linarith
  · rw [← h, RN_zero]; norm_num

theorem RN_natCast_pos {t : ℕ} (ht : 0 < t) : 1 ≤ RN (t : ℚ) := by
  have h : (1 : ℚ) ≤ (t : ℚ) := by exact_mod_cast ht
  have := RN_mono h
  rwa [RN_one] at this

/-- On a non-empty bucket the `float64` product `float64(count)/float64(total)*1000`
is finite: the rounded product of the rounded quotient. -/
theorem product_eq (count total : ℕ) (ht : 0 < total) :
    F64.mul (F64.div (F64.ofNat count) (F64.ofNat total)) (F64.ofNat 1000)
      = F64.fin (RN (RN (RN (count : ℚ) / RN (total : ℚ)) * 1000)) := by
  have hb : RN (total : ℚ) ≠ 0 := by
    have := RN_natCast_pos ht
    intro h; rw [h] at this; norm_num at this
  have h1000 : RN ((1000 : ℕ) : ℚ) = 1000 := by
    rw [show ((1000 : ℕ) : ℚ) = 1000 by norm_num, RN_thousand]
  unfold F64.ofNat
  simp only [F64.div, hb, if_false, F64.mul, h1000]

/-- On a non-empty bucket the rating is the `float64` of `ratingK / 1000`. -/
theorem rating_eq (count len n : ℕ) (ht : 0 < len * n) :
    rating count len n = F64.fin (RN ((ratingK count (len * n) : ℚ) / 1000)) := by
  have hb : RN ((len * n : ℕ) : ℚ) ≠ 0 := by
    have := RN_natCast_pos ht
    intro h; rw [h] at this; norm_num at this
  have h1000 : RN ((1000 : ℕ) : ℚ) = 1000 := by
    rw [show ((1000 : ℕ) : ℚ) = 1000 by norm_num, RN_thousand]
  unfold rating ratingK F64.ofNat
  simp only [F64.div, hb, if_false, F64.mul, h1000, F64.roundToEven]
  norm_num

theorem rating_zero_zero (n : ℕ) : rating 0 0 n = F64.nan := by
  unfold rating F64.ofNat
  simp [F64.div, F64.mul, F64.roundToEven, RN_zero]

theorem ratingK_nonneg (count total : ℕ) : 0 ≤ ratingK count total := by
  unfold ratingK
  have := rhe_mono (RN_nonneg (RN (RN (count : ℚ) / RN (total : ℚ)) * 1000))
  rwa [show (0 : ℚ) = ((0 : ℤ) : ℚ) by norm_num, rhe_intCast] at this

theorem ratio_le_one {count total : ℕ} (ht : 0 < total) (h : count ≤ total) :
    RN (RN (count : ℚ) / RN (total : ℚ)) ≤ 1 := by
  have hb := RN_natCast_pos ht
  have hab : RN (count : ℚ) ≤ RN (total : ℚ) := RN_mono (by exact_mod_cast h)
  have : RN (count : ℚ) / RN (total : ℚ) ≤ 1 := by
    rw [div_le_one (by linarith)]; exact hab
  have := RN_mono this
  rwa [RN_one] at this

theorem ratingK_le {count total : ℕ} (ht : 0 < total) (h : count ≤ total) :
    ratingK count total ≤ 1000 := by
  unfold ratingK
  have h1 := ratio_le_one ht h
  have h2 : RN (RN (count : ℚ) / RN (total : ℚ)) * 1000 ≤ 1000 := by linarith
  have h3 := RN_mono h2
  rw [RN_thousand] at h3
  have := rhe_mono h3
  rwa [show (1000 : ℚ) = ((1000 : ℤ) : ℚ) by norm_num, rhe_intCast] at this

theorem rating_bounds {count len n : ℕ} (ht : 0 < len * n) (h : count ≤ len * n) :
    ∃ q : ℚ, rating count len n = F64.fin q ∧ 0 ≤ q ∧ q ≤ 1 := by
  refine ⟨_, rating_eq count len n ht, RN_nonneg _, ?_⟩
  have hk : ((ratingK count (len * n) : ℤ) : ℚ) ≤ 1000 := by
    exact_mod_cast ratingK_le ht h
  have : ((ratingK count (len * n) : ℤ) : ℚ) / 1000 ≤ 1 := by
    rw [div_le_one (by norm_num)]; exact hk
  have := RN_mono this
  rwa [RN_one] at this

/-- The `float64` product `float64(c)/float64(t)*1000` is within `2 ^ -40` of
`1000 * c / t` when `c ≤ t`. -/
theorem product_error {c t : ℕ} (ht : 0 < t) (h : c ≤ t) :
    |RN (RN (RN (c : ℚ) / RN (t : ℚ)) * 1000) - 1000 * c / t| ≤ 1 / 2 ^ 40 := by
  have hT : (0 : ℚ) < t := by exact_mod_cast ht
  have hc0 : (0 : ℚ) ≤ c := by exact_mod_cast Nat.zero_le c
  have hct : (c : ℚ) ≤ t := by exact_mod_cast h
  have hy0 : (0 : ℚ) ≤ 1000 * c / t := by positivity
  have hy1 : (1000 : ℚ) * c / t ≤ 1000 := by
    rw [div_le_iff₀ hT]; nlinarith
  have hU : (0 : ℚ) < 1 + 1 / 2 ^ 53 := by norm_num
  have hV : (0 : ℚ) < 1 - 1 / 2 ^ 53 := by norm_num
  have ha1 := RN_le_mul hc0
  have ha2 := RN_ge_mul hc0
  have ha0 := RN_nonneg (c : ℚ)
  have hb1 := RN_le_mul hT.le
  have hb2 := RN_ge_mul hT.le
  have hb0 : 0 < RN (t : ℚ) := lt_of_lt_of_le one_pos (RN_natCast_pos ht)
  have hr0 : 0 ≤ RN (c : ℚ) / RN (t : ℚ) := div_nonneg ha0 hb0.le
  have hr1 : RN (c : ℚ) / RN (t : ℚ) ≤ ((c : ℚ) * (1 + 1 / 2 ^ 53)) / (t * (1 - 1 / 2 ^ 53)) :=
    div_le_div₀ (mul_nonneg hc0 hU.le) ha1 (mul_pos hT hV) hb2
  have hr2 : ((c : ℚ) * (1 - 1 / 2 ^ 53)) / (t * (1 + 1 / 2 ^ 53)) ≤ RN (c : ℚ) / RN (t : ℚ) :=
    div_le_div₀ ha0 ha2 hb0 hb1
  have hd1 := RN_le_mul hr0
  have hd2 := RN_ge_mul hr0
  have hd0 := RN_nonneg (RN (c : ℚ) / RN (t : ℚ))
  have hp0 : 0 ≤ RN (RN (c : ℚ) / RN (t : ℚ)) * 1000 := by positivity
  have hx1 := RN_le_mul hp0
  have hx2 := RN_ge_mul hp0
  have e1 : ((c : ℚ) * (1 + 1 / 2 ^ 53)) / (t * (1 - 1 / 2 ^ 53)) * (1 + 1 / 2 ^ 53) * 1000
      * (1 + 1 / 2 ^ 53)
      = (1000 * c / t) * ((1 + 1 / 2 ^ 53) ^ 3 / (1 - 1 / 2 ^ 53)) := by
    field_simp; ring
  have e2 : ((c : ℚ) * (1 - 1 / 2 ^ 53)) / (t * (1 + 1 / 2 ^ 53)) * (1 - 1 / 2 ^ 53) * 1000
      * (1 - 1 / 2 ^ 53)
      = (1000 * c / t) * ((1 - 1 / 2 ^ 53) ^ 3 / (1 + 1 / 2 ^ 53)) := by
    field_simp; ring
  have up : RN (RN (RN (c : ℚ) / RN (t : ℚ)) * 1000)
      ≤ (1000 * c / t) * ((1 + 1 / 2 ^ 53) ^ 3 / (1 - 1 / 2 ^ 53)) := by
    rw [← e1]
    calc _ ≤ RN (RN (c : ℚ) / RN (t : ℚ)) * 1000 * (1 + 1 / 2 ^ 53) := hx1
      _ ≤ (RN (c : ℚ) / RN (t : ℚ)) * (1 + 1 / 2 ^ 53) * 1000 * (1 + 1 / 2 ^ 53) := by
          gcongr
      _ ≤ _ := by gcongr
  have lo : (1000 * c / t) * ((1 - 1 / 2 ^ 53) ^ 3 / (1 + 1 / 2 ^ 53))
      ≤ RN (RN (RN (c : ℚ) / RN (t : ℚ)) * 1000) := by
    rw [← e2]
    calc _ ≤ (RN (c : ℚ) / RN (t : ℚ)) * (1 - 1 / 2 ^ 53) * 1000 * (1 - 1 / 2 ^ 53) := by
          gcongr
      _ ≤ RN (RN (c : ℚ) / RN (t : ℚ)) * 1000 * (1 - 1 / 2 ^ 53) := by
          gcongr
      _ ≤ _ := hx2
  have n1 : (1000 : ℚ) * ((1 + 1 / 2 ^ 53) ^ 3 / (1 - 1 / 2 ^ 53) - 1) ≤ 1 / 2 ^ 40 := by
    norm_num
  have n2 : (1000 : ℚ) * (1 - (1 - 1 / 2 ^ 53) ^ 3 / (1 + 1 / 2 ^ 53)) ≤ 1 / 2 ^ 40 := by
    norm_num
  have p1 : (0 : ℚ) ≤ (1 + 1 / 2 ^ 53) ^ 3 / (1 - 1 / 2 ^ 53) - 1 := by norm_num
  have p2 : (0 : ℚ) ≤ 1 - (1 - 1 / 2 ^ 53) ^ 3 / (1 + 1 / 2 ^ 53) := by norm_num
  rw [abs_le]
  constructor
  · have := mul_le_mul_of_nonneg_right hy1 p2
    linarith
  · have := mul_le_mul_of_nonneg_right hy1 p1
    linarith

theorem ratingK_error {c t : ℕ} (ht : 0 < t) (h : c ≤ t) :
    |(ratingK c t : ℚ) - 1000 * c / t| ≤ 1 / 2 + 1 / 2 ^ 40 := by
  have h1 := product_error ht h
  have h2 := rhe_abs_sub_le (RN (RN (RN (c : ℚ) / RN (t : ℚ)) * 1000))
  unfold ratingK
  rw [abs_le] at h1 h2 ⊢
  constructor <;> linarith [h1.1, h1.2, h2.1, h2.2]

theorem ratingK_zero (t : ℕ) : ratingK 0 t = 0 := by
  unfold ratingK
  simp only [Nat.cast_zero, RN_zero, zero_div, zero_mul]
  exact rhe_intCast 0

theorem ratingK_eq_zero_of_rating {count len n : ℕ} (ht : 0 < len * n)
    (h : rating count len n = F64.fin 0) : ratingK count (len * n) = 0 := by
  rw [rating_eq count len n ht] at h
  have h0 : RN ((ratingK count (len * n) : ℚ) / 1000) = 0 := by
    injection h
  by_contra hne
  have hk : 0 < ratingK count (len * n) :=
    lt_of_le_of_ne (ratingK_nonneg _ _) (Ne.symm hne)
  have : (0 : ℚ) < (ratingK count (len * n) : ℚ) / 1000 := by
    have : (0 : ℚ) < (ratingK count (len * n) : ℚ) := by exact_mod_cast hk
    positivity
  have := RN_pos this
  linarith

/-! ## Ratings of a scanned state -/

theorem chain_of_increasing : ∀ l : List Nat, increasing l = true →
    List.Chain' (fun a b => a < b) l
  | [], _ => List.chain'_nil
  | [_], _ => List.chain'_singleton _
  | a :: b :: l, h => by
    simp only [increasing, Bool.and_eq_true, decide_eq_true_eq] at h
    exact List.chain'_cons.2 ⟨h.1, chain_of_increasing (b :: l) h.2⟩

theorem nodup_of_increasing (ws : List Str) (h : increasing (ws.map code) = true) :
    ws.Nodup := by
  have hp : List.Pairwise (fun a b : Nat => a < b) (ws.map code) :=
    List.chain'_iff_pairwise.1 (chain_of_increasing _ h)
  exact List.Nodup.of_map code (hp.imp (fun hab => ne_of_lt hab))

/-- Scanning distinct normalized words of `n` alphabet letters, none of them in
the partition yet, enters each of them and counts each of their letters. -/
theorem foldl_scan_fresh (lower : Char → Char) (n : Nat)
    (hn : n = 4 ∨ n = 5 ∨ n = 6 ∨ n = 7) : ∀ (ws : List Str) (s : State),
    (∀ w ∈ ws, normalize lower w = w ∧ w.length = n ∧ ∀ c ∈ w, c ∈ letters) →
    ws.Nodup → (∀ w ∈ ws, hasKey (s.words n) w = false) →
    ((ws.foldl (scanLineT lower) s).words n).length = (s.words n).length + ws.length ∧
    ∀ l, (((ws.foldl (scanLineT lower) s).letterCount n l).getD 0)
      = (s.letterCount n l).getD 0 + (ws.map fun w => w.count l).sum := by
  intro ws
  induction ws with
  | nil => intro s _ _ _; simp
  | cons w ws ih =>
    intro s hv hnd hk
    obtain ⟨hnorm, hlen, hmem⟩ := hv w (List.mem_cons_self _ _)
    have hr : wordRgx n (normalize lower w) = true := by
      rw [hnorm]; exact wordRgx_of_letters n w hlen hmem
    obtain ⟨hw, hc, _⟩ := scanLineT_words_of_rgx lower s w n hn hr
    have hkw := hk w (List.mem_cons_self _ _)
    have ha : addWordT (normalize lower w) (s.words n) (s.letterCount n)
        = ((w, w) :: s.words n, w.foldl incr (s.letterCount n)) := by
      rw [hnorm]
      simp only [addWordT, hkw, Bool.false_eq_true, if_false, setWord_of_absent _ _ _ hkw]
    rw [ha] at hw hc
    rw [List.nodup_cons] at hnd
    have hk' : ∀ w' ∈ ws, hasKey ((scanLineT lower s w).words n) w' = false := by
      intro w' hw'
      rw [hw, hasKey_false_iff]
      intro e he
      rcases List.mem_cons.1 he with rfl | he
      · intro h
        have h' : w = w' := h
        exact hnd.1 (h' ▸ hw')
      · exact (hasKey_false_iff _ _).1 (hk w' (List.mem_cons_of_mem _ hw')) e he
    obtain ⟨i1, i2⟩ := ih (scanLineT lower s w)
      (fun w' hw' => hv w' (List.mem_cons_of_mem _ hw')) hnd.2 hk'
    rw [List.foldl_cons]
    refine ⟨?_, fun l => ?_⟩
    · rw [i1, hw]; simp only [List.length_cons]; omega
    · rw [i2, hc, foldl_incr_getD]; simp only [List.map_cons, List.sum_cons]; omega

theorem rateAll_words (s : State) (n : Nat) : (rateAll s).words n = s.words n := by
  unfold State.words rateAll
  split <;> rfl

theorem rateAll_letterCount (s : State) (n : Nat) :
    (rateAll s).letterCount n = s.letterCount n := by
  unfold State.letterCount rateAll
  split <;> rfl

theorem scanFileT_rated (lower : Char → Char) (lines : List Str) (n : Nat)
    (hn : n = 4 ∨ n = 5 ∨ n = 6 ∨ n = 7) (letter : Char) :
    (scanFileT lower initState lines).letterRating n letter
      = ((scanFileT lower initState lines).letterCount n letter).map
          fun count => rating count ((scanFileT lower initState lines).words n).length n := by
  unfold scanFileT
  rw [rateAll_rated _ n hn, foldl_letterRating, initState_letterRating]
  cases (rateAll (List.foldl (scanLineT lower) initState lines)).letterCount n letter <;> rfl

/-- After one or more files the rated letters are the counted ones, each with
the rating of its count. -/
theorem scanFiles_rated (lower : Char → Char) (file : List Str) (files : List (List Str))
    (n : Nat) (hn : n = 4 ∨ n = 5 ∨ n = 6 ∨ n = 7) (letter : Char) :
    ((file :: files).foldl (scanFileT lower) initState).letterRating n letter
      = (((file :: files).foldl (scanFileT lower) initState).letterCount n letter).map
          fun count =>
            rating count (((file :: files).foldl (scanFileT lower) initState).words n).length n := by
  rw [scanFiles_join]
  exact scanFileT_rated lower _ n hn letter

theorem BucketInv.count_some {n : Nat} {words : WordMap} {cnt : CountMap}
    (inv : BucketInv n words cnt) {letter : Char} (hl : letter ∈ letters) :
    ∃ count, cnt letter = some count ∧ count ≤ words.length * n := by
  have hk := (inv.keys letter).2 hl
  obtain ⟨count, hc⟩ := Option.isSome_iff_exists.1 hk
  refine ⟨count, hc, ?_⟩
  rw [← inv.total]
  have hmem : (cnt letter).getD 0 ∈ letters.map fun l => (cnt l).getD 0 :=
    List.mem_map.2 ⟨letter, hl, rfl⟩
  have := List.single_le_sum (fun x _ => Nat.zero_le x) _ hmem
  rwa [hc] at this

theorem bucket_pos {n : Nat} (hn : n = 4 ∨ n = 5 ∨ n = 6 ∨ n = 7) {words : WordMap}
    (h : words ≠ []) : 0 < words.length * n := by
  have h1 : 0 < words.length := List.length_pos.2 h
  have h2 : 0 < n := by omega
  exact Nat.mul_pos h1 h2

theorem scanFileT_fresh (lower : Char → Char) (n : Nat) (hn : n = 4 ∨ n = 5 ∨ n = 6 ∨ n = 7)
    (ws : List Str)
    (hv : ∀ w ∈ ws, normalize lower w = w ∧ w.length = n ∧ ∀ c ∈ w, c ∈ letters)
    (hnd : ws.Nodup) (letter : Char) (hl : letter ∈ letters) :
    ((scanFileT lower initState ws).words n).length = ws.length ∧
    (scanFileT lower initState ws).letterCount n letter
      = some (ws.map fun w => w.count letter).sum ∧
    (scanFileT lower initState ws).letterRating n letter
      = some (rating (ws.map fun w => w.count letter).sum ws.length n) := by
  obtain ⟨h1, h2⟩ := foldl_scan_fresh lower n hn ws initState hv hnd
    (fun w _ => by rw [initState_words]; rfl)
  have hlen : ((scanFileT lower initState ws).words n).length = ws.length := by
    unfold scanFileT
    rw [rateAll_words, h1, initState_words]; simp
  have hcnt : (scanFileT lower initState ws).letterCount n letter
      = some (ws.map fun w => w.count letter).sum := by
    obtain ⟨count, hc, _⟩ := (Inv.scanFileT Inv.initState lower ws n hn).count_some hl
    rw [hc]
    unfold scanFileT at hc
    rw [rateAll_letterCount] at hc
    have := h2 letter
    rw [hc, initState_letterCount n hn, if_pos hl] at this
    simp only [Option.getD_some, zero_add] at this
    rw [this]
  refine ⟨hlen, hcnt, ?_⟩
  rw [scanFileT_rated lower ws n hn, hcnt, hlen]
  rfl

/-! ## `getScore` -/

theorem buildL2r_fold (letterRating : RatingMap) (ls : List Char) :
    ∀ (m : RatingMap) (k : Char),
      (ls.foldl (fun m letter => setKey m letter ((letterRating letter).getD (F64.fin 0))) m) k
        = if k ∈ ls then some ((letterRating k).getD (F64.fin 0)) else m k := by
  induction ls with
  | nil => intro m k; simp
  | cons a ls ih =>
    intro m k
    rw [List.foldl_cons, ih]
    by_cases h : k ∈ ls
    · simp [h]
    · by_cases hka : k = a
      · subst hka; simp [h, setKey]
      · simp [h, hka, setKey]

/-- The map `l2r`: the rating of each letter of the sequence, nothing else. -/
theorem buildL2r_apply (ls : List Char) (letterRating : RatingMap) (k : Char) :
    buildL2r ls letterRating k
      = if k ∈ ls then some ((letterRating k).getD (F64.fin 0)) else none :=
  buildL2r_fold letterRating ls _ k

theorem rangeOrder_buildL2r (ls visit : List Char) (letterRating : RatingMap) :
    RangeOrder (buildL2r ls letterRating) visit ↔ visit.Nodup ∧ ∀ k, k ∈ visit ↔ k ∈ ls := by
  unfold RangeOrder
  have : ∀ k, ((buildL2r ls letterRating k).isSome = true) ↔ k ∈ ls := by
    intro k
    rw [buildL2r_apply]
    split <;> simp [*]
  simp only [this]

theorem getScore_of_rangeOrder (visit ls : List Char) (letterRating : RatingMap)
    (h : RangeOrder (buildL2r ls letterRating) visit) :
    getScore visit ls letterRating
      = visit.foldl (fun score l => F64.add score ((letterRating l).getD (F64.fin 0)))
          (F64.fin 0) := by
  unfold getScore
  apply List.foldl_ext
  intro score k hk
  have hk' : k ∈ ls := (((rangeOrder_buildL2r _ _ _).1 h).2 k).1 hk
  simp only [buildL2r_apply, hk', if_true, Option.getD_some]

/-- Counterexample to C3: after the ten words `scoreWords`, the stored word
`абав` has the distinct letters `а`, `б`, `в` with ratings 0.3, 0.2, 0.1.
`range l2r` may yield them as `а б в` or as `в б а`, and `getScore` returns
0.6 in the first order and 0.6000000000000001 in the second: the score is not
fixed by the set of distinct letters. -/
theorem getScore_order_dependent :
    ∃ s, scanFile cyrLower initState scoreWords = some s ∧
      s.words4.lookup "абав".toList = some "абав".toList ∧
      s.letterRating4 'а' = some (F64.fin (RN (300 / 1000))) ∧
      s.letterRating4 'б' = some (F64.fin (RN (200 / 1000))) ∧
      s.letterRating4 'в' = some (F64.fin (RN (100 / 1000))) ∧
      RangeOrder (buildL2r "абав".toList s.letterRating4) ['а', 'б', 'в'] ∧
      RangeOrder (buildL2r "абав".toList s.letterRating4) ['в', 'б', 'а'] ∧
      getScore ['а', 'б', 'в'] "абав".toList s.letterRating4
        = F64.fin (5404319552844595 / 9007199254740992) ∧
      getScore ['в', 'б', 'а'] "абав".toList s.letterRating4
        = F64.fin (2702159776422298 / 4503599627370496) ∧
      getScore ['а', 'б', 'в'] "абав".toList s.letterRating4
        ≠ getScore ['в', 'б', 'а'] "абав".toList s.letterRating4 := by
  refine ⟨_, scanFile_eq _ _ _, by decide!, by decide!, by decide!, by decide!, ?_, ?_,
    by decide!, by decide!, by decide!⟩
  · exact (rangeOrder_buildL2r _ _ _).2 ⟨by decide, fun k => by simp; tauto⟩
  · exact (rangeOrder_buildL2r _ _ _).2 ⟨by decide, fun k => by simp; tauto⟩

/-- Claim C3, amended (score definition).  Let `visit` be any order in which
`range l2r` may yield the keys.  Then `getScore` is the `float64` sum, in that
order and starting from 0, of the ratings of the letters of `visit`, which are
the distinct letters of the sequence, each once; for that same order, a
sequence with the same set of letters (other order, other multiplicities)
admits the order and gets the same score. -/
theorem getScore_distinct_letters (visit ls : List Char) (letterRating : RatingMap)
    (h : RangeOrder (buildL2r ls letterRating) visit) :
    getScore visit ls letterRating
      = visit.foldl (fun score l => F64.add score ((letterRating l).getD (F64.fin 0)))
          (F64.fin 0) ∧
    visit.Perm ls.dedup ∧
    ∀ ls' : List Char, (∀ c, c ∈ ls' ↔ c ∈ ls) →
      RangeOrder (buildL2r ls' letterRating) visit ∧
      getScore visit ls' letterRating = getScore visit ls letterRating := by
  obtain ⟨hn, hm⟩ := (rangeOrder_buildL2r _ _ _).1 h
  refine ⟨getScore_of_rangeOrder visit ls letterRating h, ?_, fun ls' hs => ?_⟩
  · exact (List.perm_ext_iff_of_nodup hn (List.nodup_dedup ls)).2
      (fun k => by rw [hm k, List.mem_dedup])
  · have h' : RangeOrder (buildL2r ls' letterRating) visit :=
      (rangeOrder_buildL2r _ _ _).2 ⟨hn, fun k => (hm k).trans (hs k).symm⟩
    exact ⟨h', by rw [getScore_of_rangeOrder _ _ _ h', getScore_of_rangeOrder _ _ _ h]⟩

/-- Witness of C3: the letters `а б а в` with ratings 1/8, 1/4, 1/2, visited as
`в а б`, score 7/8. -/
theorem getScore_distinct_letters_witness :
    RangeOrder (buildL2r ['а', 'б', 'а', 'в']
      (fun c => if c = 'а' then some (F64.fin (1 / 8)) else
        if c = 'б' then some (F64.fin (1 / 4)) else some (F64.fin (1 / 2)))) ['в', 'а', 'б'] ∧
    getScore ['в', 'а', 'б'] ['а', 'б', 'а', 'в']
      (fun c => if c = 'а' then some (F64.fin (1 / 8)) else
        if c = 'б' then some (F64.fin (1 / 4)) else some (F64.fin (1 / 2)))
      = F64.fin (7 / 8) :=
  have h : RangeOrder (buildL2r ['а', 'б', 'а', 'в']
      (fun c => if c = 'а' then some (F64.fin (1 / 8)) else
        if c = 'б' then some (F64.fin (1 / 4)) else some (F64.fin (1 / 2)))) ['в', 'а', 'б'] :=
    (rangeOrder_buildL2r _ _ _).2 ⟨by decide, fun k => by simp; tauto⟩
  ⟨h, (getScore_distinct_letters _ _ _ h).1.trans (by decide!)⟩

/-- The index check of the model is real: five letters do not fit `[4]rune`. -/
theorem fill_out_of_range :
    (fill 4 ['а', 'б', 'в', 'г', 'д'] (fun _ => none)).isNone = true := by decide

/-- The order of `range l2r` can change the last bit of a score: the ratings
0.1, 0.2, 0.3 summed as `а б в` and as `в б а`. -/
theorem getScore_visit_order :
    getScore ['а', 'б', 'в'] ['а', 'б', 'в']
        (fun c => if c = 'а' then some (F64.fin (RN (100 / 1000))) else
          if c = 'б' then some (F64.fin (RN (200 / 1000))) else
            some (F64.fin (RN (300 / 1000))))
      ≠ getScore ['в', 'б', 'а'] ['а', 'б', 'в']
        (fun c => if c = 'а' then some (F64.fin (RN (100 / 1000))) else
          if c = 'б' then some (F64.fin (RN (200 / 1000))) else
            some (F64.fin (RN (300 / 1000)))) := by
  decide!

/-! ## The ratings after a scan -/

/-- Count, bound, occurrences and rating of an alphabet letter after a scan. -/
theorem rated_letter (lower : Char → Char) (file : List Str) (files : List (List Str))
    (n : Nat) (hn : n = 4 ∨ n = 5 ∨ n = 6 ∨ n = 7) (letter : Char) (hl : letter ∈ letters) :
    ∃ count, ((file :: files).foldl (scanFileT lower) initState).letterCount n letter
        = some count ∧
      count ≤ (((file :: files).foldl (scanFileT lower) initState).words n).length * n ∧
      count = ((((file :: files).foldl (scanFileT lower) initState).words n).map
        fun e => e.1.count letter).sum ∧
      ((file :: files).foldl (scanFileT lower) initState).letterRating n letter
        = some (rating count
            (((file :: files).foldl (scanFileT lower) initState).words n).length n) := by
  have inv := Inv.scanFiles lower (file :: files) Inv.initState n hn
  obtain ⟨count, hc, hle⟩ := inv.count_some hl
  refine ⟨count, hc, hle, ?_, ?_⟩
  · have := inv.occ letter
    rwa [hc] at this
  · rw [scanFiles_rated lower file files n hn, hc]; rfl

theorem sum_count_eq_zero_iff (words : WordMap) (letter : Char) :
    (words.map fun e => e.1.count letter).sum = 0 ↔ ∀ e ∈ words, letter ∉ e.1 := by
  rw [List.sum_eq_zero_iff]
  simp only [List.mem_map, forall_exists_index, and_imp, forall_apply_eq_imp_iff₂,
    List.count_eq_zero]

/-- Claim C7 (rating bounds).  After scanning one or more files from the initial
state, in every non-empty bucket the count of each alphabet letter is at most
`len(words_n) * n`, and its rating is a finite number between 0 and 1. -/
theorem rating_in_unit_interval (lower : Char → Char) (file : List Str)
    (files : List (List Str)) :
    ∃ s, scanFiles lower initState (file :: files) = some s ∧
      ∀ n, n = 4 ∨ n = 5 ∨ n = 6 ∨ n = 7 → s.words n ≠ [] → ∀ letter ∈ letters,
        ∃ (count : ℕ) (q : ℚ), s.letterCount n letter = some count ∧
          count ≤ (s.words n).length * n ∧
          s.letterRating n letter = some (F64.fin q) ∧ 0 ≤ q ∧ q ≤ 1 := by
  refine ⟨_, scanFiles_eq lower _ initState, fun n hn hne letter hl => ?_⟩
  obtain ⟨count, hc, hle, _, hr⟩ := rated_letter lower file files n hn letter hl
  obtain ⟨q, hq, h0, h1⟩ := rating_bounds (bucket_pos hn hne) hle
  exact ⟨count, q, hc, hle, by rw [hr, hq], h0, h1⟩

/-- Counterexample to C4: after the file with the single line `коты`, bucket 7
is empty and the rating of `а` for length 7 is `NaN`, not 0. -/
theorem empty_bucket_not_zero :
    ∃ s, scanFile cyrLower initState ["коты".toList] = some s ∧ s.words 7 = [] ∧
      'а' ∈ letters ∧ s.letterRating 7 'а' = some F64.nan ∧
      s.letterRating 7 'а' ≠ some (F64.fin 0) := by
  refine ⟨_, scanFile_eq _ _ _, ?_⟩
  decide!

/-- Claim C4, amended (empty partition).  After scanning one or more files from
the initial state, no panic occurs, and for a length `n` whose partition is
empty every alphabet letter has count 0 and rating `NaN` (`0/0`). -/
theorem empty_bucket_rating (lower : Char → Char) (file : List Str)
    (files : List (List Str)) :
    ∃ s, scanFiles lower initState (file :: files) = some s ∧
      ∀ n, n = 4 ∨ n = 5 ∨ n = 6 ∨ n = 7 → s.words n = [] → ∀ letter ∈ letters,
        s.letterCount n letter = some 0 ∧ s.letterRating n letter = some F64.nan := by
  refine ⟨_, scanFiles_eq lower _ initState, fun n hn he letter hl => ?_⟩
  obtain ⟨count, hc, hle, _, hr⟩ := rated_letter lower file files n hn letter hl
  rw [he] at hle hr
  have h0 : count = 0 := by simpa using hle
  subst h0
  exact ⟨hc, by rw [hr]; exact congrArg some (rating_zero_zero n)⟩

/-- The scan of `tieWords`: 80 words, 203 letters `а`. -/
theorem tieWords_scan :
    ((scanFileT cyrLower initState tieWords).words 5).length = 80 ∧
    (scanFileT cyrLower initState tieWords).letterCount 5 'а' = some 203 ∧
    (scanFileT cyrLower initState tieWords).letterRating 5 'а' = some (rating 203 80 5) := by
  have h := scanFileT_fresh cyrLower 5 (by decide) tieWords (by decide!)
    (nodup_of_increasing _ (by decide!)) 'а' (by decide)
  have e1 : (tieWords.map fun w => w.count 'а').sum = 203 := by decide!
  have e2 : tieWords.length = 80 := by decide!
  rwa [e1, e2] at h

/-- Counterexample to C5: after the 80 five-letter words `tieWords`, `а` has
count 203 of 400 letter slots; the ratio 0.5075 rounds half-to-even to 0.508,
but the stored rating is the `float64` of 0.507, a different number. -/
theorem rounding_tie_not_even :
    ∃ s, scanFile cyrLower initState tieWords = some s ∧ (s.words 5).length = 80 ∧
      s.letterCount 5 'а' = some 203 ∧
      s.letterRating 5 'а' = some (F64.fin (RN (507 / 1000))) ∧
      roundHalfEven ((203 : ℚ) / ((80 * 5 : ℕ) : ℚ) * 1000) = 508 ∧
      RN (507 / 1000) ≠ RN (508 / 1000) := by
  refine ⟨_, scanFile_eq _ _ _, tieWords_scan.1, tieWords_scan.2.1, ?_, by decide!, by decide!⟩
  rw [tieWords_scan.2.2]
  decide!

/-- Claim C5, amended (rating formula).  In every non-empty bucket, for every
alphabet letter, the `float64` product `float64(count)/float64(len(words_n)*n)*1000`
is a finite number `x` within `2^-40` of the exact `1000 * count / (len(words_n) * n)`,
and the stored rating is the `float64` nearest to `k / 1000`, where `k` is `x`
rounded to the nearest integer, ties to even; `0 ≤ k ≤ 1000`, and `k` is
within `1/2 + 2^-40` of the exact value.  Round-half-to-even thus acts on the
`float64` product, not on the exact ratio.  The ratios 0.1235 and 0.1245 (247
and 249 of 2000 slots) both give 0.124; the products 2.5 and 3.5 (5 and 7 of
2000 slots) are exact ties and give 0.002 and 0.004. -/
theorem rating_rounding :
    (∀ (lower : Char → Char) (file : List Str) (files : List (List Str)),
      ∃ s, scanFiles lower initState (file :: files) = some s ∧
        ∀ n, n = 4 ∨ n = 5 ∨ n = 6 ∨ n = 7 → s.words n ≠ [] → ∀ letter ∈ letters,
          ∃ (count : ℕ) (x : ℚ), s.letterCount n letter = some count ∧
            F64.mul (F64.div (F64.ofNat count) (F64.ofNat ((s.words n).length * n)))
              (F64.ofNat 1000) = F64.fin x ∧
            |x - 1000 * (count : ℚ) / (((s.words n).length * n : ℕ) : ℚ)| ≤ 1 / 2 ^ 40 ∧
            s.letterRating n letter
              = some (F64.fin (RN ((roundHalfEven x : ℚ) / 1000))) ∧
            0 ≤ roundHalfEven x ∧ roundHalfEven x ≤ 1000 ∧
            |(roundHalfEven x : ℚ) - 1000 * (count : ℚ) / (((s.words n).length * n : ℕ) : ℚ)|
              ≤ 1 / 2 + 1 / 2 ^ 40) ∧
    rating 247 400 5 = F64.fin (RN (124 / 1000)) ∧
    rating 249 400 5 = F64.fin (RN (124 / 1000)) ∧
    F64.mul (F64.div (F64.ofNat 5) (F64.ofNat (400 * 5))) (F64.ofNat 1000)
      = F64.fin (5 / 2) ∧
    rating 5 400 5 = F64.fin (RN (2 / 1000)) ∧
    F64.mul (F64.div (F64.ofNat 7) (F64.ofNat (400 * 5))) (F64.ofNat 1000)
      = F64.fin (7 / 2) ∧
    rating 7 400 5 = F64.fin (RN (4 / 1000)) ∧
    RN (2 / 1000) ≠ RN (3 / 1000) ∧ RN (3 / 1000) ≠ RN (4 / 1000) := by
  refine ⟨fun lower file files => ?_, by decide!, by decide!, by decide!, by decide!,
    by decide!, by decide!, by decide!, by decide!⟩
  refine ⟨_, scanFiles_eq lower _ initState, fun n hn hne letter hl => ?_⟩
  obtain ⟨count, hc, hle, _, hr⟩ := rated_letter lower file files n hn letter hl
  have hpos := bucket_pos hn hne
  exact ⟨count, _, hc, product_eq count _ hpos, product_error hpos hle,
    by rw [hr, rating_eq count _ n hpos]; rfl,
    ratingK_nonneg _ _, ratingK_le hpos hle, ratingK_error hpos hle⟩

/-- The scan of `rareWords`: 286 words, one letter `я`. -/
theorem rareWords_scan :
    ((scanFileT cyrLower initState rareWords).words 7).length = 286 ∧
    (scanFileT cyrLower initState rareWords).letterCount 7 'я' = some 1 ∧
    (scanFileT cyrLower initState rareWords).letterRating 7 'я' = some (rating 1 286 7) := by
  have h := scanFileT_fresh cyrLower 7 (by decide) rareWords (by decide!)
    (nodup_of_increasing _ (by decide!)) 'я' (by decide)
  have e1 : (rareWords.map fun w => w.count 'я').sum = 1 := by decide!
  have e2 : rareWords.length = 286 := by decide!
  rwa [e1, e2] at h

/-- Counterexample to C6: after the 286 seven-letter words `rareWords`, the
letter `я` occurs in a word of `words7` and has count 1, yet its rating is 0. -/
theorem rare_letter_rated_zero :
    ∃ s, scanFile cyrLower initState rareWords = some s ∧ (s.words 7).length = 286 ∧
      s.letterCount 7 'я' = some 1 ∧
      (∃ e ∈ s.words 7, 'я' ∈ e.1) ∧
      s.letterRating 7 'я' = some (F64.fin 0) := by
  refine ⟨_, scanFile_eq _ _ _, rareWords_scan.1, rareWords_scan.2.1, ?_, ?_⟩
  · have hocc := (Inv.scanFileT Inv.initState cyrLower rareWords 7 (by decide)).occ 'я'
    rw [rareWords_scan.2.1] at hocc
    by_contra hno
    have hz := (sum_count_eq_zero_iff _ 'я').2
      (fun e he hmem => hno ⟨e, he, hmem⟩)
    rw [hz] at hocc
    simp at hocc
  · rw [rareWords_scan.2.2]
    decide!

/-- Claim C6, amended (zero rating).  In every non-empty bucket the count of an
alphabet letter is 0 exactly when the letter occurs in no word of the bucket;
a letter with count 0 has rating 0; and a letter with rating 0 has
`1000 * count / (len(words_n) * n) ≤ 1/2 + 2^-40`, so it fills at most about
0.05 % of the letter slots. -/
theorem zero_rating (lower : Char → Char) (file : List Str) (files : List (List Str)) :
    ∃ s, scanFiles lower initState (file :: files) = some s ∧
      ∀ n, n = 4 ∨ n = 5 ∨ n = 6 ∨ n = 7 → s.words n ≠ [] → ∀ letter ∈ letters,
        ∃ count : ℕ, s.letterCount n letter = some count ∧
          (count = 0 ↔ ∀ e ∈ s.words n, letter ∉ e.1) ∧
          (count = 0 → s.letterRating n letter = some (F64.fin 0)) ∧
          (s.letterRating n letter = some (F64.fin 0) →
            1000 * (count : ℚ) / (((s.words n).length * n : ℕ) : ℚ) ≤ 1 / 2 + 1 / 2 ^ 40) := by
  refine ⟨_, scanFiles_eq lower _ initState, fun n hn hne letter hl => ?_⟩
  obtain ⟨count, hc, hle, hocc, hr⟩ := rated_letter lower file files n hn letter hl
  have hpos := bucket_pos hn hne
  refine ⟨count, hc, ?_, ?_, ?_⟩
  · rw [hocc]; exact sum_count_eq_zero_iff _ _
  · intro h0
    rw [hr, rating_eq count _ n hpos, h0, ratingK_zero]
    simp [RN_zero]
  · intro hz
    rw [hr] at hz
    have hk := ratingK_eq_zero_of_rating hpos (Option.some.inj hz)
    have he := ratingK_error hpos hle
    rw [hk, abs_le] at he
    have := he.1
    push_cast at this ⊢
    linarith

end Wordle
